import Mathlib

/-!
Verification development for the recent-encounters program (hl_enc_v101.py).

The program is a single-pass encounter-detection engine over a time-ordered
stream of location reports.  This file gives a shallow embedding of the
engine and of its distance computations, translated from the source:

* Engine layer (HlLocation, HlDataEntry, HlEncounter, HlUser, HlProcessor):
  usernames are strings, unixtimes are unbounded integers (Python longs),
  Python dicts and sets over user objects become association lists and name
  lists (user objects are in bijection with names, since a user object is
  created only when its name is absent from the user dictionary).  The one
  floating-point ingredient of the detection loop, the boolean distance
  test distanceToUserWithinLimit, is abstracted as a Boolean parameter
  distOk of the loop; the engine theorems below are proved for every such
  predicate, hence in particular for the actual distance test.

* Distance layer (HlLocationR, sinFromCos, distanceToUserHaversine,
  distanceToUserSimpleChord, distanceToUserWithinLimit): the floating-point
  formulas of the source are embedded over the real numbers, with latitude
  and longitude taken as the parsed degree values.
-/

/-! ## Engine constants (6 hour and 24 hour time limits, in seconds) -/

def kHl_UserActiveTimeLimit : Int := 21600

def kHl_EncounterTimeLimit : Int := 86400

/-! ## HlLocation: latitude and longitude as the given signed decimal strings.
The degree/radian float conversions of the class are part of the distance
layer below; the engine only carries the strings through to the output. -/

structure HlLocation where
  latDS : String
  longDS : String
deriving DecidableEq

/-! ## HlEncounter -/

structure HlEncounter where
  username1 : Option String
  username2 : Option String
  loc1 : Option HlLocation
  loc2 : Option HlLocation
  time : Option Int
  valid : Bool
deriving DecidableEq

/-- Constructor of HlEncounter (its `__init__`): an encounter of a user with
itself is invalid (all attributes keep their class defaults of None/False);
otherwise the names and locations are stored, swapped if needed so that
username1 is the lexicographically smaller name. -/
def HlEncounter.init (inTime : Option Int) (inUsername1 : String) (inLoc1 : Option HlLocation)
    (inUsername2 : String) (inLoc2 : Option HlLocation) : HlEncounter :=
  if inUsername1 = inUsername2 then
    { username1 := none, username2 := none, loc1 := none, loc2 := none,
      time := none, valid := false }
  else if inUsername1 < inUsername2 then
    { username1 := some inUsername1, username2 := some inUsername2,
      loc1 := inLoc1, loc2 := inLoc2, time := inTime, valid := true }
  else
    { username1 := some inUsername2, username2 := some inUsername1,
      loc1 := inLoc2, loc2 := inLoc1, time := inTime, valid := true }

/-! ## HlDataEntry: a parsed, valid input record.  Parsing of the pipe-separated
line and discarding of malformed lines happen upstream of the engine. -/

structure HlDataEntry where
  username : String
  time : Int
  loc : HlLocation
deriving DecidableEq

/-! ## HlUser.  The userEncounterDict maps peer names to the stored value of
the last shared encounter time (a Python value which in principle may be
None, hence Option Int); otherUserSet is the set of other interesting users,
represented by their names.  The cached cos(p) of the last posted location
only memoizes a float and is modeled in the distance layer. -/

structure HlUser where
  name : String
  lastPostedTime : Option Int
  lastPostedLoc : Option HlLocation
  userEncounterDict : List (String × Option Int)
  otherUserSet : List String
deriving DecidableEq

/-- Python dict lookup in userEncounterDict. -/
def lookupTime : List (String × Option Int) → String → Option (Option Int)
  | [], _ => none
  | pr :: rest, k => if pr.1 = k then some pr.2 else lookupTime rest k

/-- Python dict store in userEncounterDict (replace, or append if absent). -/
def updateTime : List (String × Option Int) → String → Option Int → List (String × Option Int)
  | [], k, v => [(k, v)]
  | pr :: rest, k, v => if pr.1 = k then (k, v) :: rest else pr :: updateTime rest k v

def HlUser.updateLastPostedTime (self : HlUser) (time : Int) : HlUser :=
  { self with lastPostedTime := some time }

def HlUser.updateLastPostedLoc (self : HlUser) (loc : HlLocation) : HlUser :=
  { self with lastPostedLoc := some loc }

/-- Create or update the stored unixtime for an encounter with a user; a None
user argument only logs an error and changes nothing. -/
def HlUser.updateEncounterWithUser (self : HlUser) (user : Option HlUser) (time : Option Int) : HlUser :=
  match user with
  | some u => { self with userEncounterDict := updateTime self.userEncounterDict u.name time }
  | none => self

/-- Return the stored unixtime for the last encounter with a user, or None if
one has not occurred (the stored Python value is returned as-is, so a stored
None and an absent key are both reported as None). -/
def HlUser.lastEncounterWithUser (self : HlUser) (user : Option HlUser) : Option Int :=
  match user with
  | some u =>
    match lookupTime self.userEncounterDict u.name with
    | some v => v
    | none => none
  | none => none

/-- Add a user (by name) to the set of other interesting users if absent. -/
def HlUser.addInterestingUser (self : HlUser) (userName : String) : HlUser :=
  if userName ∈ self.otherUserSet then self
  else { self with otherUserSet := self.otherUserSet ++ [userName] }

/-- Remove a self-reference from the interesting-user set if present. -/
def HlUser.cleanInterestingUsers (self : HlUser) : HlUser :=
  if self.name ∈ self.otherUserSet then
    { self with otherUserSet := self.otherUserSet.erase self.name }
  else self

/-- True iff the time argument is valid, the user has a saved posted time, the
delta to it is not negative, and the delta is below the 6-hour active limit. -/
def HlUser.userIsStillActive (self : HlUser) (time : Option Int) : Bool :=
  match time with
  | none => false
  | some t =>
    match self.lastPostedTime with
    | none => false
    | some lp =>
      if t - lp < 0 then false
      else if t - lp < kHl_UserActiveTimeLimit then true
      else false

/-- True iff both arguments are valid, a last encounter time with the user is
stored, the delta to it is not negative, and the delta is below the 24-hour
encounter limit. -/
def HlUser.alreadyEncounteredUserWithinLimit (self : HlUser) (user : Option HlUser)
    (time : Option Int) : Bool :=
  match user, time with
  | some u, some t =>
    match self.lastEncounterWithUser (some u) with
    | some lastEncounterTime =>
      if t - lastEncounterTime < 0 then false
      else if t - lastEncounterTime < kHl_EncounterTimeLimit then true
      else false
    | none => false
  | _, _ => false

/-- Python 2 max over possibly-None unixtimes: None sorts below every integer. -/
def pyMaxOpt : Option Int → Option Int → Option Int
  | none, b => b
  | some a, none => some a
  | some a, some b => some (max a b)

/-! ## Association-list utilities for the processor user dictionary. -/

def lookupUser : List (String × HlUser) → String → Option HlUser
  | [], _ => none
  | pr :: rest, n => if pr.1 = n then some pr.2 else lookupUser rest n

/-- Replace the value stored under an existing key (Python dict assignment for
a key already present). -/
def updateUser (l : List (String × HlUser)) (n : String) (u : HlUser) : List (String × HlUser) :=
  l.map (fun pr => if pr.1 = n then (n, u) else pr)

/-! ## HlProcessor.  The file-reading fields are out of scope; the processor
state is the user dictionary and the encounter list, and the record stream is
passed to findEncounters as a list of parsed entries. -/

structure HlProcessor where
  userDict : List (String × HlUser)
  encounterList : List HlEncounter
deriving DecidableEq

/-- For each user already in the user dict, create mutual interesting-user
entries for that user and the new user; then remove an accidental
self-reference from the new user.  Returns the updated processor and the
updated new user. -/
def HlProcessor.updateInterestingUserSets (p : HlProcessor) (newUser : HlUser) :
    HlProcessor × HlUser :=
  (⟨p.userDict.map (fun pr => (pr.1, pr.2.addInterestingUser newUser.name)), p.encounterList⟩,
   (p.userDict.foldl (fun nu pr => nu.addInterestingUser pr.1) newUser).cleanInterestingUsers)

/-- If the username of a (valid) data entry has no user object yet, create the
user with no posted time or location, register mutual interest with every
existing user, and add it to the user dict. -/
def HlProcessor.incorporateDataEntryAndUserIfNew (p : HlProcessor) (dataEntry : HlDataEntry) :
    HlProcessor :=
  match lookupUser p.userDict dataEntry.username with
  | some _ => p
  | none =>
    let newUser : HlUser :=
      { name := dataEntry.username, lastPostedTime := none, lastPostedLoc := none,
        userEncounterDict := [], otherUserSet := [] }
    let pu := p.updateInterestingUserSets newUser
    ⟨pu.1.userDict ++ [(dataEntry.username, pu.2)], pu.1.encounterList⟩

/-- Add a new encounter for the two users at the later of their two posted
times, updating the encounter lookup tables inside both users and appending
the encounter object to the list. -/
def HlProcessor.addEncounter (p : HlProcessor) (user0 user1 : HlUser) : HlProcessor :=
  let latestTime := pyMaxOpt user0.lastPostedTime user1.lastPostedTime
  let user0u := user0.updateEncounterWithUser (some user1) latestTime
  let user1u := user1.updateEncounterWithUser (some user0) latestTime
  { userDict := updateUser (updateUser p.userDict user0.name user0u) user1.name user1u,
    encounterList := p.encounterList ++
      [HlEncounter.init latestTime user0.name user0.lastPostedLoc
        user1.name user1.lastPostedLoc] }

/-- One iteration of the interesting-user loop of findEncounters: skip the
other user if inactive, skip if an encounter within the 24-hour limit is
already recorded, otherwise add an encounter when the distance test accepts.
Both user objects are read from the user dict (they are aliases of the dict
values in the source).  The distance test is the Boolean parameter distOk. -/
def HlProcessor.scanStep (distOk : HlUser → HlUser → Bool) (p : HlProcessor)
    (userName : String) (t : Int) (oname : String) : HlProcessor :=
  match lookupUser p.userDict userName, lookupUser p.userDict oname with
  | some user, some otherUser =>
    if otherUser.userIsStillActive (some t) = true then
      if user.alreadyEncounteredUserWithinLimit (some otherUser) (some t) = true then p
      else if distOk user otherUser = true then p.addEncounter user otherUser
      else p
    else p
  | _, _ => p

/-- The interesting-user loop of findEncounters over the captured set of other
interesting users of the entry user. -/
def HlProcessor.scanOtherUsers (distOk : HlUser → HlUser → Bool) (p : HlProcessor)
    (userName : String) (t : Int) : List String → HlProcessor
  | [] => p
  | oname :: rest =>
    HlProcessor.scanOtherUsers distOk (HlProcessor.scanStep distOk p userName t oname)
      userName t rest

/-- Processing of one data entry inside findEncounters: the user object is
created and registered if new (this happens inside getDataEntry in the
source, immediately before the entry is processed), its state is updated
from the entry, and the interesting-user loop runs. -/
def HlProcessor.processEntry (distOk : HlUser → HlUser → Bool) (p : HlProcessor)
    (entry : HlDataEntry) : HlProcessor :=
  let p1 := p.incorporateDataEntryAndUserIfNew entry
  match lookupUser p1.userDict entry.username with
  | none => p1
  | some user =>
    let useru := (user.updateLastPostedTime entry.time).updateLastPostedLoc entry.loc
    let p2 : HlProcessor := ⟨updateUser p1.userDict entry.username useru, p1.encounterList⟩
    HlProcessor.scanOtherUsers distOk p2 entry.username entry.time useru.otherUserSet

/-- The single-pass engine in its default (unsorted) mode: fold processEntry
over the parsed record stream, starting from an empty processor.  The
optional final sort (sortFinalList) is not applied on this default path. -/
def findEncounters (distOk : HlUser → HlUser → Bool) (entries : List HlDataEntry) : HlProcessor :=
  entries.foldl (HlProcessor.processEntry distOk) ⟨[], []⟩

/-! ## Observations on the encounter list used by the claims. -/

/-- The timestamp of a well-formed encounter (defaulting for the None case,
which the invariants below exclude for emitted encounters). -/
def encTime (e : HlEncounter) : Int := e.time.getD 0

/-- The encounter mentions exactly the unordered pair of usernames a, b. -/
def sameUnorderedPair (e : HlEncounter) (a b : String) : Bool :=
  decide ((e.username1 = some a ∧ e.username2 = some b) ∨
          (e.username1 = some b ∧ e.username2 = some a))

/-- Timestamps, in emission order, of the encounters of an encounter list that
mention exactly the unordered pair of usernames a, b. -/
def pairTimesL (L : List HlEncounter) (a b : String) : List Int :=
  (L.filter (fun e => sameUnorderedPair e a b)).map encTime

/-! ## Utility lemmas for the association lists. -/

theorem lookupUser_mem {l : List (String × HlUser)} {n : String} {u : HlUser}
    (h : lookupUser l n = some u) : (n, u) ∈ l := by
  induction l with
  | nil => simp [lookupUser] at h
  | cons pr rest ih =>
    by_cases hn : pr.1 = n
    · simp only [lookupUser, if_pos hn] at h
      cases h
      have hpr : (n, pr.2) = pr := by rw [← hn]
      rw [hpr]
      exact List.mem_cons_self pr rest
    · simp only [lookupUser, if_neg hn] at h
      exact List.mem_cons_of_mem _ (ih h)

theorem lookupUser_eq_none_of_not_mem {l : List (String × HlUser)} {n : String}
    (h : n ∉ l.map Prod.fst) : lookupUser l n = none := by
  induction l with
  | nil => rfl
  | cons pr rest ih =>
    simp only [List.map_cons, List.mem_cons, not_or] at h
    have hne : ¬pr.1 = n := fun hh => h.1 hh.symm
    simp only [lookupUser, if_neg hne]
    exact ih h.2

theorem mem_keys_of_lookupUser {l : List (String × HlUser)} {n : String} {u : HlUser}
    (h : lookupUser l n = some u) : n ∈ l.map Prod.fst := by
  have := lookupUser_mem h
  exact List.mem_map.2 ⟨(n, u), this, rfl⟩

theorem lookupUser_map_values (l : List (String × HlUser)) (g : String × HlUser → HlUser)
    (n : String) :
    lookupUser (l.map (fun pr => (pr.1, g pr))) n = (lookupUser l n).map (fun w => g (n, w)) := by
  induction l with
  | nil => rfl
  | cons pr rest ih =>
    by_cases hn : pr.1 = n
    · have hpr : (n, pr.2) = pr := by rw [← hn]
      simp only [List.map_cons, lookupUser, hn, if_pos, Option.map_some']
      rw [hpr]
    · simp only [List.map_cons, lookupUser, if_neg hn]
      exact ih

theorem lookupUser_append (l1 l2 : List (String × HlUser)) (n : String) :
    lookupUser (l1 ++ l2) n =
      match lookupUser l1 n with
      | some u => some u
      | none => lookupUser l2 n := by
  induction l1 with
  | nil => rfl
  | cons pr rest ih =>
    by_cases hn : pr.1 = n
    · simp [lookupUser, hn]
    · simp [lookupUser, hn, ih]

theorem lookupUser_updateUser_self {l : List (String × HlUser)} {n : String} (u : HlUser) :
    lookupUser (updateUser l n u) n = (lookupUser l n).map (fun _ => u) := by
  induction l with
  | nil => rfl
  | cons pr rest ih =>
    by_cases hn : pr.1 = n
    · simp [updateUser, lookupUser, hn]
    · simp only [updateUser, List.map_cons, if_neg hn]
      simp only [lookupUser, if_neg hn]
      exact ih

theorem lookupUser_updateUser_ne {l : List (String × HlUser)} {n m : String} (u : HlUser)
    (h : m ≠ n) : lookupUser (updateUser l n u) m = lookupUser l m := by
  induction l with
  | nil => rfl
  | cons pr rest ih =>
    by_cases hn : pr.1 = n
    · have h1 : ¬n = m := fun hh => h hh.symm
      have h2 : ¬pr.1 = m := by rw [hn]; exact h1
      simp only [updateUser, List.map_cons, if_pos hn, lookupUser, if_neg h1, if_neg h2]
      simpa [updateUser] using ih
    · simp only [updateUser, List.map_cons, if_neg hn, lookupUser]
      by_cases hm : pr.1 = m
      · simp [hm]
      · simp only [if_neg hm]
        simpa [updateUser] using ih

theorem keys_updateUser (l : List (String × HlUser)) (n : String) (u : HlUser) :
    (updateUser l n u).map Prod.fst = l.map Prod.fst := by
  induction l with
  | nil => rfl
  | cons pr rest ih =>
    by_cases hn : pr.1 = n
    · simp [updateUser, hn] at ih ⊢
      exact ih
    · simp [updateUser, hn] at ih ⊢
      exact ih

theorem mem_updateUser {l : List (String × HlUser)} {n : String} {u : HlUser} {pr : String × HlUser}
    (h : pr ∈ updateUser l n u) :
    pr ∈ l ∨ (pr = (n, u) ∧ ∃ q ∈ l, q.1 = n) := by
  rcases List.mem_map.1 h with ⟨q, hq, hEq⟩
  by_cases hn : q.1 = n
  · right
    rw [if_pos hn] at hEq
    exact ⟨hEq.symm, q, hq, hn⟩
  · left
    rw [if_neg hn] at hEq
    exact hEq ▸ hq

theorem lookupTime_updateTime_self (d : List (String × Option Int)) (k : String) (v : Option Int) :
    lookupTime (updateTime d k v) k = some v := by
  induction d with
  | nil => simp [updateTime, lookupTime]
  | cons pr rest ih =>
    by_cases hk : pr.1 = k
    · simp [updateTime, lookupTime, hk]
    · simp only [updateTime, if_neg hk, lookupTime, if_neg hk]
      exact ih

theorem lookupTime_updateTime_ne (d : List (String × Option Int)) {k m : String} (v : Option Int)
    (h : m ≠ k) : lookupTime (updateTime d k v) m = lookupTime d m := by
  induction d with
  | nil =>
    have h1 : ¬k = m := fun hh => h hh.symm
    simp [updateTime, lookupTime, h1]
  | cons pr rest ih =>
    by_cases hk : pr.1 = k
    · have h1 : ¬k = m := fun hh => h hh.symm
      have h2 : ¬pr.1 = m := by rw [hk]; exact h1
      simp only [updateTime, if_pos hk, lookupTime, if_neg h1, if_neg h2]
    · simp only [updateTime, if_neg hk, lookupTime]
      by_cases hm : pr.1 = m
      · simp [hm]
      · simp only [if_neg hm]
        exact ih

/-! ## Utility lemmas about pairTimesL and HlEncounter.init. -/

theorem pairTimesL_append (L1 L2 : List HlEncounter) (a b : String) :
    pairTimesL (L1 ++ L2) a b = pairTimesL L1 a b ++ pairTimesL L2 a b := by
  simp [pairTimesL, List.filter_append]

theorem sameUnorderedPair_comm (e : HlEncounter) (a b : String) :
    sameUnorderedPair e a b = sameUnorderedPair e b a := by
  simp only [sameUnorderedPair]
  rw [decide_eq_decide]
  exact or_comm

theorem pairTimesL_comm (L : List HlEncounter) (a b : String) :
    pairTimesL L a b = pairTimesL L b a := by
  simp only [pairTimesL]
  rw [List.filter_congr (fun e _ => sameUnorderedPair_comm e a b)]

theorem mem_pairTimesL {L : List HlEncounter} {a b : String} {s : Int}
    (h : s ∈ pairTimesL L a b) :
    ∃ e ∈ L, sameUnorderedPair e a b = true ∧ encTime e = s := by
  rcases List.mem_map.1 h with ⟨e, he, hs⟩
  rcases List.mem_filter.1 he with ⟨heL, hmatch⟩
  exact ⟨e, heL, hmatch, hs⟩

theorem pairTimesL_singleton (e : HlEncounter) (a b : String) :
    pairTimesL [e] a b = if sameUnorderedPair e a b = true then [encTime e] else [] := by
  by_cases h : sameUnorderedPair e a b = true
  · simp [pairTimesL, h]
  · simp [pairTimesL, h]

theorem HlEncounter.init_valid {n0 n1 : String} (h : n0 ≠ n1) (t : Option Int)
    (l0 l1 : Option HlLocation) : (HlEncounter.init t n0 l0 n1 l1).valid = true := by
  rcases lt_or_gt_of_ne h with hlt | hgt
  · simp [HlEncounter.init, h, hlt]
  · simp [HlEncounter.init, h, not_lt_of_gt hgt]

theorem HlEncounter.init_time {n0 n1 : String} (h : n0 ≠ n1) (t : Option Int)
    (l0 l1 : Option HlLocation) : (HlEncounter.init t n0 l0 n1 l1).time = t := by
  rcases lt_or_gt_of_ne h with hlt | hgt
  · simp [HlEncounter.init, h, hlt]
  · simp [HlEncounter.init, h, not_lt_of_gt hgt]

theorem HlEncounter.init_names {n0 n1 : String} (h : n0 ≠ n1) (t : Option Int)
    (l0 l1 : Option HlLocation) :
    ∃ a b, (HlEncounter.init t n0 l0 n1 l1).username1 = some a ∧
      (HlEncounter.init t n0 l0 n1 l1).username2 = some b ∧ a < b ∧
      ((a = n0 ∧ b = n1) ∨ (a = n1 ∧ b = n0)) := by
  rcases lt_or_gt_of_ne h with hlt | hgt
  · refine ⟨n0, n1, ?_, ?_, hlt, Or.inl ⟨rfl, rfl⟩⟩ <;> simp [HlEncounter.init, h, hlt]
  · refine ⟨n1, n0, ?_, ?_, hgt, Or.inr ⟨rfl, rfl⟩⟩ <;> simp [HlEncounter.init, h, not_lt_of_gt hgt]

theorem sameUnorderedPair_init {n0 n1 : String} (h : n0 ≠ n1) (t : Option Int)
    (l0 l1 : Option HlLocation) (a b : String) :
    sameUnorderedPair (HlEncounter.init t n0 l0 n1 l1) a b = true ↔
      ((a = n0 ∧ b = n1) ∨ (a = n1 ∧ b = n0)) := by
  rcases lt_or_gt_of_ne h with hlt | hgt
  · simp only [sameUnorderedPair, HlEncounter.init, if_neg h, if_pos hlt, decide_eq_true_eq,
      Option.some.injEq]
    constructor <;> rintro (⟨rfl, rfl⟩ | ⟨rfl, rfl⟩) <;> simp
  · simp only [sameUnorderedPair, HlEncounter.init, if_neg h, if_neg (not_lt_of_gt hgt),
      decide_eq_true_eq, Option.some.injEq]
    constructor <;> rintro (⟨rfl, rfl⟩ | ⟨rfl, rfl⟩) <;> simp

/-! ## Field-preservation helper lemmas. -/

theorem HlUser.addInterestingUser_name (u : HlUser) (k : String) :
    (u.addInterestingUser k).name = u.name := by
  unfold HlUser.addInterestingUser
  split <;> rfl

theorem HlUser.addInterestingUser_lastPostedTime (u : HlUser) (k : String) :
    (u.addInterestingUser k).lastPostedTime = u.lastPostedTime := by
  unfold HlUser.addInterestingUser
  split <;> rfl

theorem HlUser.addInterestingUser_userEncounterDict (u : HlUser) (k : String) :
    (u.addInterestingUser k).userEncounterDict = u.userEncounterDict := by
  unfold HlUser.addInterestingUser
  split <;> rfl

theorem HlUser.mem_addInterestingUser {u : HlUser} {k x : String}
    (h : x ∈ (u.addInterestingUser k).otherUserSet) : x ∈ u.otherUserSet ∨ x = k := by
  unfold HlUser.addInterestingUser at h
  split at h
  · exact Or.inl h
  · simp only [List.mem_append, List.mem_singleton] at h
    exact h

theorem HlUser.updateEncounterWithUser_name (u : HlUser) (other : Option HlUser) (t : Option Int) :
    (u.updateEncounterWithUser other t).name = u.name := by
  unfold HlUser.updateEncounterWithUser
  cases other <;> rfl

theorem HlUser.updateEncounterWithUser_lastPostedTime (u : HlUser) (other : Option HlUser)
    (t : Option Int) :
    (u.updateEncounterWithUser other t).lastPostedTime = u.lastPostedTime := by
  unfold HlUser.updateEncounterWithUser
  cases other <;> rfl

theorem HlUser.updateEncounterWithUser_lastPostedLoc (u : HlUser) (other : Option HlUser)
    (t : Option Int) :
    (u.updateEncounterWithUser other t).lastPostedLoc = u.lastPostedLoc := by
  unfold HlUser.updateEncounterWithUser
  cases other <;> rfl

theorem HlUser.updateEncounterWithUser_otherUserSet (u : HlUser) (other : Option HlUser)
    (t : Option Int) :
    (u.updateEncounterWithUser other t).otherUserSet = u.otherUserSet := by
  unfold HlUser.updateEncounterWithUser
  cases other <;> rfl

theorem HlUser.updateEncounterWithUser_dict (u other : HlUser) (t : Option Int) :
    (u.updateEncounterWithUser (some other) t).userEncounterDict =
      updateTime u.userEncounterDict other.name t := rfl

theorem foldlInterest_name (l : List (String × HlUser)) (u : HlUser) :
    (l.foldl (fun nu pr => nu.addInterestingUser pr.1) u).name = u.name := by
  induction l generalizing u with
  | nil => rfl
  | cons pr rest ih => rw [List.foldl_cons, ih, HlUser.addInterestingUser_name]

theorem foldlInterest_lastPostedTime (l : List (String × HlUser)) (u : HlUser) :
    (l.foldl (fun nu pr => nu.addInterestingUser pr.1) u).lastPostedTime = u.lastPostedTime := by
  induction l generalizing u with
  | nil => rfl
  | cons pr rest ih => rw [List.foldl_cons, ih, HlUser.addInterestingUser_lastPostedTime]

theorem foldlInterest_userEncounterDict (l : List (String × HlUser)) (u : HlUser) :
    (l.foldl (fun nu pr => nu.addInterestingUser pr.1) u).userEncounterDict =
      u.userEncounterDict := by
  induction l generalizing u with
  | nil => rfl
  | cons pr rest ih => rw [List.foldl_cons, ih, HlUser.addInterestingUser_userEncounterDict]

theorem mem_foldlInterest {l : List (String × HlUser)} {u : HlUser} {x : String}
    (h : x ∈ (l.foldl (fun nu pr => nu.addInterestingUser pr.1) u).otherUserSet) :
    x ∈ u.otherUserSet ∨ x ∈ l.map Prod.fst := by
  induction l generalizing u with
  | nil => exact Or.inl h
  | cons pr rest ih =>
    rw [List.foldl_cons] at h
    rcases ih h with hu | hrest
    · rcases HlUser.mem_addInterestingUser hu with hu2 | hx
      · exact Or.inl hu2
      · exact Or.inr (by simp [hx])
    · exact Or.inr (List.mem_cons_of_mem _ hrest)

theorem HlUser.cleanInterestingUsers_of_not_mem {u : HlUser} (h : u.name ∉ u.otherUserSet) :
    u.cleanInterestingUsers = u := by
  unfold HlUser.cleanInterestingUsers
  rw [if_neg h]

/-! ## The run invariant of the engine.  T is an upper bound for every
timestamp the state has absorbed so far (posted times, encounter times and
stored last-encounter times). -/

def userKeys (p : HlProcessor) : List String := p.userDict.map Prod.fst

structure EngineInv (p : HlProcessor) (T : Int) : Prop where
  keys : ∀ pr ∈ p.userDict, pr.2.name = pr.1
  noSelf : ∀ pr ∈ p.userDict, pr.1 ∉ pr.2.otherUserSet
  timeBound : ∀ pr ∈ p.userDict, ∀ t, pr.2.lastPostedTime = some t → t ≤ T
  encWF : ∀ e ∈ p.encounterList, e.valid = true ∧
    ∃ a b t, e.username1 = some a ∧ e.username2 = some b ∧ a < b ∧ e.time = some t ∧ t ≤ T ∧
      a ∈ userKeys p ∧ b ∈ userKeys p
  encSorted : List.Pairwise (fun e1 e2 => encTime e1 ≤ encTime e2) p.encounterList
  pairGap : ∀ a b, List.Pairwise (fun s t => s + kHl_EncounterTimeLimit ≤ t)
    (pairTimesL p.encounterList a b)
  dictStored : ∀ a b u v, lookupUser p.userDict a = some u →
    lookupTime u.userEncounterDict b = some v →
    ∃ tl, v = some tl ∧ tl ≤ T ∧ ∀ s ∈ pairTimesL p.encounterList a b, s ≤ tl
  dictNone : ∀ a b u, lookupUser p.userDict a = some u →
    lookupTime u.userEncounterDict b = none →
    pairTimesL p.encounterList a b = []

theorem engineInv_mono {p : HlProcessor} {T U : Int} (inv : EngineInv p T) (hTU : T ≤ U) :
    EngineInv p U where
  keys := inv.keys
  noSelf := inv.noSelf
  timeBound := fun pr hpr t ht => le_trans (inv.timeBound pr hpr t ht) hTU
  encWF := by
    intro e he
    obtain ⟨hv, a, b, t, h1, h2, h3, h4, h5, h6, h7⟩ := inv.encWF e he
    exact ⟨hv, a, b, t, h1, h2, h3, h4, le_trans h5 hTU, h6, h7⟩
  encSorted := inv.encSorted
  pairGap := inv.pairGap
  dictStored := by
    intro a b u v hu hv
    obtain ⟨tl, h1, h2, h3⟩ := inv.dictStored a b u v hu hv
    exact ⟨tl, h1, le_trans h2 hTU, h3⟩
  dictNone := inv.dictNone

theorem engineInv_initial (T : Int) : EngineInv ⟨[], []⟩ T where
  keys := by intro pr hpr; simp at hpr
  noSelf := by intro pr hpr; simp at hpr
  timeBound := by intro pr hpr; simp at hpr
  encWF := by intro e he; simp at he
  encSorted := List.Pairwise.nil
  pairGap := by intro a b; simp [pairTimesL]
  dictStored := by intro a b u v hu; simp [lookupUser] at hu
  dictNone := by intro a b u hu; simp [lookupUser] at hu

/-! ## Preservation of the invariant by addEncounter. -/

theorem pairTimes_all_le {p : HlProcessor} {T : Int} (inv : EngineInv p T) (a b : String) :
    ∀ s ∈ pairTimesL p.encounterList a b, s ≤ T := by
  intro s hs
  obtain ⟨e, he, hm, hts⟩ := mem_pairTimesL hs
  obtain ⟨-, a2, b2, t, -, -, -, ht, hTle, -, -⟩ := inv.encWF e he
  rw [← hts]
  simpa [encTime, ht] using hTle

theorem addEncounter_userDict (p : HlProcessor) (user other : HlUser) :
    (p.addEncounter user other).userDict =
      updateUser (updateUser p.userDict user.name
          (user.updateEncounterWithUser (some other)
            (pyMaxOpt user.lastPostedTime other.lastPostedTime)))
        other.name
        (other.updateEncounterWithUser (some user)
          (pyMaxOpt user.lastPostedTime other.lastPostedTime)) := rfl

theorem addEncounter_preserves {p : HlProcessor} {T : Int} {user other : HlUser}
    (inv : EngineInv p T)
    (hu : lookupUser p.userDict user.name = some user)
    (ho : lookupUser p.userDict other.name = some other)
    (hne : user.name ≠ other.name)
    (hlt : user.lastPostedTime = some T)
    (hna : user.alreadyEncounteredUserWithinLimit (some other) (some T) = false) :
    EngineInv (p.addEncounter user other) T := by
  have hmem0 : (user.name, user) ∈ p.userDict := lookupUser_mem hu
  have hmem1 : (other.name, other) ∈ p.userDict := lookupUser_mem ho
  have hmax : pyMaxOpt user.lastPostedTime other.lastPostedTime = some T := by
    rw [hlt]
    cases hol : other.lastPostedTime with
    | none => rfl
    | some t1 =>
      have ht1 : t1 ≤ T := inv.timeBound _ hmem1 t1 hol
      simp [pyMaxOpt, max_eq_left ht1]
  have hp2 : p.addEncounter user other =
      ⟨updateUser (updateUser p.userDict user.name
          (user.updateEncounterWithUser (some other) (some T))) other.name
          (other.updateEncounterWithUser (some user) (some T)),
        p.encounterList ++ [HlEncounter.init (some T) user.name user.lastPostedLoc
          other.name other.lastPostedLoc]⟩ := by
    simp only [HlProcessor.addEncounter, hmax]
  rw [hp2]
  set U0 : HlUser := user.updateEncounterWithUser (some other) (some T) with hU0
  set U1 : HlUser := other.updateEncounterWithUser (some user) (some T) with hU1
  set EN : HlEncounter := HlEncounter.init (some T) user.name user.lastPostedLoc
      other.name other.lastPostedLoc with hEN
  have hU0name : U0.name = user.name := HlUser.updateEncounterWithUser_name _ _ _
  have hU1name : U1.name = other.name := HlUser.updateEncounterWithUser_name _ _ _
  have hU0set : U0.otherUserSet = user.otherUserSet :=
    HlUser.updateEncounterWithUser_otherUserSet _ _ _
  have hU1set : U1.otherUserSet = other.otherUserSet :=
    HlUser.updateEncounterWithUser_otherUserSet _ _ _
  have hU0time : U0.lastPostedTime = user.lastPostedTime :=
    HlUser.updateEncounterWithUser_lastPostedTime _ _ _
  have hU1time : U1.lastPostedTime = other.lastPostedTime :=
    HlUser.updateEncounterWithUser_lastPostedTime _ _ _
  have hU0dict : U0.userEncounterDict = updateTime user.userEncounterDict other.name (some T) :=
    HlUser.updateEncounterWithUser_dict user other (some T)
  have hU1dict : U1.userEncounterDict = updateTime other.userEncounterDict user.name (some T) :=
    HlUser.updateEncounterWithUser_dict other user (some T)
  have hENvalid : EN.valid = true := by
    rw [hEN]; exact HlEncounter.init_valid hne _ _ _
  have hENtime : EN.time = some T := by
    rw [hEN]; exact HlEncounter.init_time hne _ _ _
  have hENencTime : encTime EN = T := by rw [encTime, hENtime]; rfl
  have hENmatch : ∀ a b, sameUnorderedPair EN a b = true ↔
      ((a = user.name ∧ b = other.name) ∨ (a = other.name ∧ b = user.name)) := by
    intro a b
    rw [hEN]
    exact sameUnorderedPair_init hne _ _ _ a b
  have hENnames : ∃ a b, EN.username1 = some a ∧ EN.username2 = some b ∧ a < b ∧
      ((a = user.name ∧ b = other.name) ∨ (a = other.name ∧ b = user.name)) := by
    rw [hEN]
    exact HlEncounter.init_names hne _ _ _
  have hkeysD2 : (updateUser (updateUser p.userDict user.name U0) other.name U1).map Prod.fst
      = p.userDict.map Prod.fst := by rw [keys_updateUser, keys_updateUser]
  have hl1 : lookupUser (updateUser (updateUser p.userDict user.name U0) other.name U1) other.name
      = some U1 := by
    rw [lookupUser_updateUser_self, lookupUser_updateUser_ne _ hne.symm, ho]
    rfl
  have hl0 : lookupUser (updateUser (updateUser p.userDict user.name U0) other.name U1) user.name
      = some U0 := by
    rw [lookupUser_updateUser_ne _ hne, lookupUser_updateUser_self, hu]
    rfl
  have hlother : ∀ m, m ≠ user.name → m ≠ other.name →
      lookupUser (updateUser (updateUser p.userDict user.name U0) other.name U1) m
      = lookupUser p.userDict m := by
    intro m hm0 hm1
    rw [lookupUser_updateUser_ne _ hm1, lookupUser_updateUser_ne _ hm0]
  have hmemD2 : ∀ pr : String × HlUser,
      pr ∈ updateUser (updateUser p.userDict user.name U0) other.name U1 →
      pr ∈ p.userDict ∨ pr = (user.name, U0) ∨ pr = (other.name, U1) := by
    intro pr hpr
    rcases mem_updateUser hpr with h2 | ⟨h2, -⟩
    · rcases mem_updateUser h2 with h3 | ⟨h3, -⟩
      · exact Or.inl h3
      · exact Or.inr (Or.inl h3)
    · exact Or.inr (Or.inr h2)
  have hpairL2 : ∀ a b, pairTimesL (p.encounterList ++ [EN]) a b =
      pairTimesL p.encounterList a b ++
        (if sameUnorderedPair EN a b = true then [T] else []) := by
    intro a b
    rw [pairTimesL_append, pairTimesL_singleton, hENencTime]
  have hgap : ∀ s ∈ pairTimesL p.encounterList user.name other.name,
      s + kHl_EncounterTimeLimit ≤ T := by
    cases hlook : lookupTime user.userEncounterDict other.name with
    | none =>
      rw [inv.dictNone _ _ _ hu hlook]
      intro s hs
      simp at hs
    | some v =>
      obtain ⟨tl, hv, htl, hall⟩ := inv.dictStored _ _ _ _ hu hlook
      subst hv
      have hlast : user.lastEncounterWithUser (some other) = some tl := by
        simp only [HlUser.lastEncounterWithUser, hlook]
      simp only [HlUser.alreadyEncounteredUserWithinLimit, hlast] at hna
      have h0 : ¬(T - tl < 0) := by omega
      rw [if_neg h0] at hna
      intro s hs
      have hstl := hall s hs
      by_cases h1 : T - tl < kHl_EncounterTimeLimit
      · rw [if_pos h1] at hna
        exact absurd hna (by simp)
      · omega
  refine ⟨?_, ?_, ?_, ?_, ?_, ?_, ?_, ?_⟩
  · -- keys
    intro pr hpr
    rcases hmemD2 pr hpr with h | h | h
    · exact inv.keys pr h
    · subst h
      show U0.name = user.name
      exact hU0name
    · subst h
      show U1.name = other.name
      exact hU1name
  · -- noSelf
    intro pr hpr
    rcases hmemD2 pr hpr with h | h | h
    · exact inv.noSelf pr h
    · subst h
      show user.name ∉ U0.otherUserSet
      rw [hU0set]
      exact inv.noSelf _ hmem0
    · subst h
      show other.name ∉ U1.otherUserSet
      rw [hU1set]
      exact inv.noSelf _ hmem1
  · -- timeBound
    intro pr hpr t ht
    rcases hmemD2 pr hpr with h | h | h
    · exact inv.timeBound pr h t ht
    · subst h
      have ht2 : U0.lastPostedTime = some t := ht
      rw [hU0time, hlt] at ht2
      cases ht2
      exact le_refl _
    · subst h
      have ht2 : U1.lastPostedTime = some t := ht
      rw [hU1time] at ht2
      exact inv.timeBound _ hmem1 t ht2
  · -- encWF
    intro e he
    have he2 : e ∈ p.encounterList ++ [EN] := he
    rcases List.mem_append.1 he2 with heL | heN
    · obtain ⟨hv, a, b, t, h1, h2, h3, h4, h5, h6, h7⟩ := inv.encWF e heL
      refine ⟨hv, a, b, t, h1, h2, h3, h4, h5, ?_, ?_⟩
      · show a ∈ (updateUser (updateUser p.userDict user.name U0) other.name U1).map Prod.fst
        rw [hkeysD2]
        exact h6
      · show b ∈ (updateUser (updateUser p.userDict user.name U0) other.name U1).map Prod.fst
        rw [hkeysD2]
        exact h7
    · rw [List.mem_singleton] at heN
      subst heN
      obtain ⟨a, b, ha, hb, hab, hcases⟩ := hENnames
      refine ⟨hENvalid, a, b, T, ha, hb, hab, hENtime, le_refl T, ?_, ?_⟩
      · show a ∈ (updateUser (updateUser p.userDict user.name U0) other.name U1).map Prod.fst
        rw [hkeysD2]
        rcases hcases with ⟨rfl, -⟩ | ⟨rfl, -⟩
        · exact mem_keys_of_lookupUser hu
        · exact mem_keys_of_lookupUser ho
      · show b ∈ (updateUser (updateUser p.userDict user.name U0) other.name U1).map Prod.fst
        rw [hkeysD2]
        rcases hcases with ⟨-, rfl⟩ | ⟨-, rfl⟩
        · exact mem_keys_of_lookupUser ho
        · exact mem_keys_of_lookupUser hu
  · -- encSorted
    show List.Pairwise (fun e1 e2 => encTime e1 ≤ encTime e2) (p.encounterList ++ [EN])
    refine List.pairwise_append.2 ⟨inv.encSorted, by simp, ?_⟩
    intro e1 he1 e2 he2
    rw [List.mem_singleton] at he2
    subst he2
    obtain ⟨-, a, b, t, -, -, -, ht, hTle, -, -⟩ := inv.encWF e1 he1
    have het : encTime e1 = t := by simp [encTime, ht]
    rw [hENencTime, het]
    exact hTle
  · -- pairGap
    intro a b
    show List.Pairwise (fun s t => s + kHl_EncounterTimeLimit ≤ t)
      (pairTimesL (p.encounterList ++ [EN]) a b)
    rw [hpairL2 a b]
    by_cases hm : sameUnorderedPair EN a b = true
    · rw [if_pos hm]
      refine List.pairwise_append.2 ⟨inv.pairGap a b, by simp, ?_⟩
      intro s hs t2 ht2
      rw [List.mem_singleton] at ht2
      subst ht2
      rcases (hENmatch a b).1 hm with ⟨rfl, rfl⟩ | ⟨rfl, rfl⟩
      · exact hgap s hs
      · rw [pairTimesL_comm] at hs
        exact hgap s hs
    · rw [if_neg hm, List.append_nil]
      exact inv.pairGap a b
  · -- dictStored
    intro a b u v hlu hlv
    have hlu2 : lookupUser (updateUser (updateUser p.userDict user.name U0) other.name U1) a
        = some u := hlu
    by_cases ha1 : a = other.name
    · subst ha1
      rw [hl1] at hlu2
      cases hlu2
      have hlv2 : lookupTime (updateTime other.userEncounterDict user.name (some T)) b = some v := by
        rw [← hU1dict]
        exact hlv
      by_cases hb : b = user.name
      · subst hb
        rw [lookupTime_updateTime_self] at hlv2
        cases hlv2
        refine ⟨T, rfl, le_refl T, ?_⟩
        intro s hs
        have hs2 : s ∈ pairTimesL (p.encounterList ++ [EN]) other.name user.name := hs
        rw [hpairL2] at hs2
        rcases List.mem_append.1 hs2 with hsold | hsnew
        · exact pairTimes_all_le inv _ _ s hsold
        · have hmm : sameUnorderedPair EN other.name user.name = true :=
            (hENmatch _ _).2 (Or.inr ⟨rfl, rfl⟩)
          rw [if_pos hmm, List.mem_singleton] at hsnew
          rw [hsnew]
      · rw [lookupTime_updateTime_ne _ _ hb] at hlv2
        obtain ⟨tl, hv, htl, hall⟩ := inv.dictStored other.name b other v ho hlv2
        refine ⟨tl, hv, htl, ?_⟩
        intro s hs
        have hs2 : s ∈ pairTimesL (p.encounterList ++ [EN]) other.name b := hs
        rw [hpairL2] at hs2
        have hmm : ¬(sameUnorderedPair EN other.name b = true) := by
          rw [hENmatch]
          rintro (⟨h1, h2⟩ | ⟨h1, h2⟩)
          · exact hne h1.symm
          · exact hb h2
        rw [if_neg hmm, List.append_nil] at hs2
        exact hall s hs2
    · by_cases ha0 : a = user.name
      · subst ha0
        rw [hl0] at hlu2
        cases hlu2
        have hlv2 : lookupTime (updateTime user.userEncounterDict other.name (some T)) b
            = some v := by
          rw [← hU0dict]
          exact hlv
        by_cases hb : b = other.name
        · subst hb
          rw [lookupTime_updateTime_self] at hlv2
          cases hlv2
          refine ⟨T, rfl, le_refl T, ?_⟩
          intro s hs
          have hs2 : s ∈ pairTimesL (p.encounterList ++ [EN]) user.name other.name := hs
          rw [hpairL2] at hs2
          rcases List.mem_append.1 hs2 with hsold | hsnew
          · exact pairTimes_all_le inv _ _ s hsold
          · have hmm : sameUnorderedPair EN user.name other.name = true :=
              (hENmatch _ _).2 (Or.inl ⟨rfl, rfl⟩)
            rw [if_pos hmm, List.mem_singleton] at hsnew
            rw [hsnew]
        · rw [lookupTime_updateTime_ne _ _ hb] at hlv2
          obtain ⟨tl, hv, htl, hall⟩ := inv.dictStored user.name b user v hu hlv2
          refine ⟨tl, hv, htl, ?_⟩
          intro s hs
          have hs2 : s ∈ pairTimesL (p.encounterList ++ [EN]) user.name b := hs
          rw [hpairL2] at hs2
          have hmm : ¬(sameUnorderedPair EN user.name b = true) := by
            rw [hENmatch]
            rintro (⟨h1, h2⟩ | ⟨h1, h2⟩)
            · exact hb h2
            · exact hne h1
          rw [if_neg hmm, List.append_nil] at hs2
          exact hall s hs2
      · rw [hlother a ha0 ha1] at hlu2
        obtain ⟨tl, hv, htl, hall⟩ := inv.dictStored a b u v hlu2 hlv
        refine ⟨tl, hv, htl, ?_⟩
        intro s hs
        have hs2 : s ∈ pairTimesL (p.encounterList ++ [EN]) a b := hs
        rw [hpairL2] at hs2
        have hmm : ¬(sameUnorderedPair EN a b = true) := by
          rw [hENmatch]
          rintro (⟨h1, h2⟩ | ⟨h1, h2⟩)
          · exact ha0 h1
          · exact ha1 h1
        rw [if_neg hmm, List.append_nil] at hs2
        exact hall s hs2
  · -- dictNone
    intro a b u hlu hlv
    have hlu2 : lookupUser (updateUser (updateUser p.userDict user.name U0) other.name U1) a
        = some u := hlu
    show pairTimesL (p.encounterList ++ [EN]) a b = []
    by_cases ha1 : a = other.name
    · subst ha1
      rw [hl1] at hlu2
      cases hlu2
      have hlv2 : lookupTime (updateTime other.userEncounterDict user.name (some T)) b = none := by
        rw [← hU1dict]
        exact hlv
      by_cases hb : b = user.name
      · subst hb
        rw [lookupTime_updateTime_self] at hlv2
        simp at hlv2
      · rw [lookupTime_updateTime_ne _ _ hb] at hlv2
        rw [hpairL2]
        have hmm : ¬(sameUnorderedPair EN other.name b = true) := by
          rw [hENmatch]
          rintro (⟨h1, h2⟩ | ⟨h1, h2⟩)
          · exact hne h1.symm
          · exact hb h2
        rw [if_neg hmm, List.append_nil]
        exact inv.dictNone other.name b other ho hlv2
    · by_cases ha0 : a = user.name
      · subst ha0
        rw [hl0] at hlu2
        cases hlu2
        have hlv2 : lookupTime (updateTime user.userEncounterDict other.name (some T)) b
            = none := by
          rw [← hU0dict]
          exact hlv
        by_cases hb : b = other.name
        · subst hb
          rw [lookupTime_updateTime_self] at hlv2
          simp at hlv2
        · rw [lookupTime_updateTime_ne _ _ hb] at hlv2
          rw [hpairL2]
          have hmm : ¬(sameUnorderedPair EN user.name b = true) := by
            rw [hENmatch]
            rintro (⟨h1, h2⟩ | ⟨h1, h2⟩)
            · exact hb h2
            · exact hne h1
          rw [if_neg hmm, List.append_nil]
          exact inv.dictNone user.name b user hu hlv2
      · rw [hlother a ha0 ha1] at hlu2
        rw [hpairL2]
        have hmm : ¬(sameUnorderedPair EN a b = true) := by
          rw [hENmatch]
          rintro (⟨h1, h2⟩ | ⟨h1, h2⟩)
          · exact ha0 h1
          · exact ha1 h1
        rw [if_neg hmm, List.append_nil]
        exact inv.dictNone a b u hlu2 hlv

/-! ## Preservation of the invariant by the detection loop. -/

theorem scanStep_preserves (distOk : HlUser → HlUser → Bool) {p : HlProcessor} {t : Int}
    (userName oname : String) (inv : EngineInv p t)
    (hlast : ∀ u, lookupUser p.userDict userName = some u → u.lastPostedTime = some t)
    (hne : oname ≠ userName) :
    EngineInv (HlProcessor.scanStep distOk p userName t oname) t ∧
    (∀ u, lookupUser (HlProcessor.scanStep distOk p userName t oname).userDict userName = some u →
      u.lastPostedTime = some t) := by
  cases hu : lookupUser p.userDict userName with
  | none =>
    simp only [HlProcessor.scanStep, hu]
    exact ⟨inv, fun u h => nomatch h⟩
  | some user =>
    have hlast2 : ∀ u : HlUser, some user = some u → u.lastPostedTime = some t := by
      intro u h
      cases h
      exact hlast user hu
    cases ho : lookupUser p.userDict oname with
    | none =>
      simp only [HlProcessor.scanStep, hu, ho]
      exact ⟨inv, hlast2⟩
    | some otherUser =>
      simp only [HlProcessor.scanStep, hu, ho]
      by_cases hact : otherUser.userIsStillActive (some t) = true
      · rw [if_pos hact]
        by_cases halready : user.alreadyEncounteredUserWithinLimit (some otherUser) (some t) = true
        · rw [if_pos halready]
          exact ⟨inv, hlast⟩
        · rw [if_neg halready]
          by_cases hdist : distOk user otherUser = true
          · rw [if_pos hdist]
            have huser_name : user.name = userName := inv.keys _ (lookupUser_mem hu)
            have hother_name : otherUser.name = oname := inv.keys _ (lookupUser_mem ho)
            have hnames : user.name ≠ otherUser.name := by
              rw [huser_name, hother_name]
              exact fun hh => hne hh.symm
            have hulast : user.lastPostedTime = some t := hlast user hu
            have halready2 :
                user.alreadyEncounteredUserWithinLimit (some otherUser) (some t) = false := by
              rwa [Bool.not_eq_true] at halready
            have hu2 : lookupUser p.userDict user.name = some user := by
              rw [huser_name]
              exact hu
            have ho2 : lookupUser p.userDict otherUser.name = some otherUser := by
              rw [hother_name]
              exact ho
            refine ⟨addEncounter_preserves inv hu2 ho2 hnames hulast halready2, ?_⟩
            intro u hu3
            have hnu : userName ≠ otherUser.name := by
              rw [hother_name]
              exact fun hh => hne hh.symm
            rw [addEncounter_userDict, lookupUser_updateUser_ne _ hnu, huser_name,
              lookupUser_updateUser_self, hu] at hu3
            simp only [Option.map_some'] at hu3
            cases hu3
            rw [HlUser.updateEncounterWithUser_lastPostedTime]
            exact hulast
          · rw [if_neg hdist]
            exact ⟨inv, hlast⟩
      · rw [if_neg hact]
        exact ⟨inv, hlast⟩

theorem scanOtherUsers_preserves (distOk : HlUser → HlUser → Bool) (userName : String) (t : Int) :
    ∀ (others : List String) (p : HlProcessor), EngineInv p t →
    (∀ u, lookupUser p.userDict userName = some u → u.lastPostedTime = some t) →
    (∀ on2 ∈ others, on2 ≠ userName) →
    EngineInv (HlProcessor.scanOtherUsers distOk p userName t others) t := by
  intro others
  induction others with
  | nil =>
    intro p inv hlast hothers
    exact inv
  | cons oname rest ih =>
    intro p inv hlast hothers
    show EngineInv (HlProcessor.scanOtherUsers distOk
      (HlProcessor.scanStep distOk p userName t oname) userName t rest) t
    obtain ⟨inv2, hlast2⟩ := scanStep_preserves distOk userName oname inv hlast
      (hothers oname (List.mem_cons_self _ _))
    exact ih _ inv2 hlast2 (fun on2 hon2 => hothers on2 (List.mem_cons_of_mem _ hon2))

/-! ## Preservation of the invariant by user creation. -/

theorem lookupUser_isSome_of_mem_keys {l : List (String × HlUser)} {n : String}
    (h : n ∈ l.map Prod.fst) : ∃ u, lookupUser l n = some u := by
  induction l with
  | nil => simp at h
  | cons pr rest ih =>
    by_cases hn : pr.1 = n
    · exact ⟨pr.2, by simp [lookupUser, hn]⟩
    · simp only [List.map_cons, List.mem_cons] at h
      rcases h with h | h
      · exact absurd h.symm hn
      · obtain ⟨u, hu⟩ := ih h
        exact ⟨u, by simp [lookupUser, hn, hu]⟩

theorem keys_map_values (l : List (String × HlUser)) (g : String × HlUser → HlUser) :
    ((l.map (fun pr => (pr.1, g pr))).map Prod.fst) = l.map Prod.fst := by
  induction l with
  | nil => rfl
  | cons pr rest ih => simp [ih]

theorem incorporate_eq_of_some {p : HlProcessor} {e : HlDataEntry} {u : HlUser}
    (h : lookupUser p.userDict e.username = some u) :
    p.incorporateDataEntryAndUserIfNew e = p := by
  unfold HlProcessor.incorporateDataEntryAndUserIfNew
  rw [h]

theorem incorporate_eq_of_none {p : HlProcessor} {e : HlDataEntry}
    (h : lookupUser p.userDict e.username = none) :
    p.incorporateDataEntryAndUserIfNew e =
      ⟨p.userDict.map (fun pr => (pr.1, pr.2.addInterestingUser e.username)) ++
        [(e.username, (p.userDict.foldl (fun nu pr => nu.addInterestingUser pr.1)
          (⟨e.username, none, none, [], []⟩ : HlUser)).cleanInterestingUsers)],
        p.encounterList⟩ := by
  unfold HlProcessor.incorporateDataEntryAndUserIfNew HlProcessor.updateInterestingUserSets
  rw [h]

theorem HlUser.cleanInterestingUsers_name (u : HlUser) :
    u.cleanInterestingUsers.name = u.name := by
  unfold HlUser.cleanInterestingUsers
  split <;> rfl

theorem incorporate_preserves {p : HlProcessor} {T : Int} (inv : EngineInv p T)
    (entry : HlDataEntry) : EngineInv (p.incorporateDataEntryAndUserIfNew entry) T := by
  cases hl : lookupUser p.userDict entry.username with
  | some u =>
    rw [incorporate_eq_of_some hl]
    exact inv
  | none =>
    rw [incorporate_eq_of_none hl]
    have hnm : entry.username ∉ p.userDict.map Prod.fst := by
      intro hmem
      obtain ⟨u, hu⟩ := lookupUser_isSome_of_mem_keys hmem
      rw [hu] at hl
      cases hl
    set F : HlUser := p.userDict.foldl (fun nu pr => nu.addInterestingUser pr.1)
      (⟨entry.username, none, none, [], []⟩ : HlUser) with hF
    have hFname : F.name = entry.username := by
      rw [hF, foldlInterest_name]
    have hFnotself : entry.username ∉ F.otherUserSet := by
      intro hmem
      rcases mem_foldlInterest hmem with hmem2 | hmem2
      · simp at hmem2
      · exact hnm hmem2
    have hNUeq : F.cleanInterestingUsers = F :=
      HlUser.cleanInterestingUsers_of_not_mem (hFname ▸ hFnotself)
    rw [hNUeq]
    have hFtime : F.lastPostedTime = none := by
      rw [hF, foldlInterest_lastPostedTime]
    have hFdict : F.userEncounterDict = [] := by
      rw [hF, foldlInterest_userEncounterDict]
    have hkeysNew :
        ((p.userDict.map (fun pr => (pr.1, pr.2.addInterestingUser entry.username)) ++
          [(entry.username, F)]).map Prod.fst)
        = p.userDict.map Prod.fst ++ [entry.username] := by
      rw [List.map_append, keys_map_values]
      rfl
    have hlookNm :
        lookupUser (p.userDict.map (fun pr => (pr.1, pr.2.addInterestingUser entry.username)) ++
          [(entry.username, F)]) entry.username = some F := by
      rw [lookupUser_append, lookupUser_map_values, hl]
      simp [lookupUser]
    have hlookOther : ∀ a, a ≠ entry.username →
        lookupUser (p.userDict.map (fun pr => (pr.1, pr.2.addInterestingUser entry.username)) ++
          [(entry.username, F)]) a
        = (lookupUser p.userDict a).map (fun w => w.addInterestingUser entry.username) := by
      intro a ha
      rw [lookupUser_append, lookupUser_map_values]
      cases hla : lookupUser p.userDict a with
      | none =>
        have hne2 : ¬entry.username = a := fun hh => ha hh.symm
        simp [lookupUser, hne2]
      | some w => rfl
    refine ⟨?_, ?_, ?_, ?_, ?_, ?_, ?_, ?_⟩
    · -- keys
      intro pr hpr
      rcases List.mem_append.1 hpr with hpr2 | hpr2
      · rcases List.mem_map.1 hpr2 with ⟨q, hq, hEq⟩
        subst hEq
        show (q.2.addInterestingUser entry.username).name = q.1
        rw [HlUser.addInterestingUser_name]
        exact inv.keys q hq
      · rw [List.mem_singleton] at hpr2
        subst hpr2
        exact hFname
    · -- noSelf
      intro pr hpr
      rcases List.mem_append.1 hpr with hpr2 | hpr2
      · rcases List.mem_map.1 hpr2 with ⟨q, hq, hEq⟩
        subst hEq
        show q.1 ∉ (q.2.addInterestingUser entry.username).otherUserSet
        intro hmem
        rcases HlUser.mem_addInterestingUser hmem with hmem2 | hmem2
        · exact inv.noSelf q hq hmem2
        · apply hnm
          rw [← hmem2]
          exact List.mem_map.2 ⟨q, hq, rfl⟩
      · rw [List.mem_singleton] at hpr2
        subst hpr2
        exact hFnotself
    · -- timeBound
      intro pr hpr t ht
      rcases List.mem_append.1 hpr with hpr2 | hpr2
      · rcases List.mem_map.1 hpr2 with ⟨q, hq, hEq⟩
        subst hEq
        have ht2 : (q.2.addInterestingUser entry.username).lastPostedTime = some t := ht
        rw [HlUser.addInterestingUser_lastPostedTime] at ht2
        exact inv.timeBound q hq t ht2
      · rw [List.mem_singleton] at hpr2
        subst hpr2
        have ht2 : F.lastPostedTime = some t := ht
        rw [hFtime] at ht2
        cases ht2
    · -- encWF
      intro e he
      obtain ⟨hv, a, b, t, h1, h2, h3, h4, h5, h6, h7⟩ := inv.encWF e he
      refine ⟨hv, a, b, t, h1, h2, h3, h4, h5, ?_, ?_⟩
      · show a ∈ ((p.userDict.map (fun pr => (pr.1, pr.2.addInterestingUser entry.username)) ++
          [(entry.username, F)]).map Prod.fst)
        rw [hkeysNew]
        exact List.mem_append_left _ h6
      · show b ∈ ((p.userDict.map (fun pr => (pr.1, pr.2.addInterestingUser entry.username)) ++
          [(entry.username, F)]).map Prod.fst)
        rw [hkeysNew]
        exact List.mem_append_left _ h7
    · -- encSorted
      exact inv.encSorted
    · -- pairGap
      exact inv.pairGap
    · -- dictStored
      intro a b u v hlu hlv
      by_cases ha : a = entry.username
      · subst ha
        have hlu2 : lookupUser _ entry.username = some u := hlu
        rw [hlookNm] at hlu2
        cases hlu2
        have hlv2 : lookupTime F.userEncounterDict b = some v := hlv
        rw [hFdict] at hlv2
        cases hlv2
      · have hlu2 : lookupUser _ a = some u := hlu
        rw [hlookOther a ha] at hlu2
        rcases Option.map_eq_some'.1 hlu2 with ⟨w, hw, hwu⟩
        subst hwu
        have hlv2 : lookupTime (w.addInterestingUser entry.username).userEncounterDict b
            = some v := hlv
        rw [HlUser.addInterestingUser_userEncounterDict] at hlv2
        exact inv.dictStored a b w v hw hlv2
    · -- dictNone
      intro a b u hlu hlv
      show pairTimesL p.encounterList a b = []
      by_cases ha : a = entry.username
      · subst ha
        rcases List.eq_nil_or_concat (pairTimesL p.encounterList entry.username b) with hnil | hx
        · exact hnil
        · exfalso
          obtain ⟨L2, s, hs⟩ := hx
          have hsmem : s ∈ pairTimesL p.encounterList entry.username b := by
            rw [hs, List.concat_eq_append]
            exact List.mem_append_right _ (List.mem_singleton_self s)
          obtain ⟨e, he, hm, -⟩ := mem_pairTimesL hsmem
          obtain ⟨-, a2, b2, t, h1, h2, -, -, -, h6, h7⟩ := inv.encWF e he
          simp only [sameUnorderedPair, decide_eq_true_eq, h1, h2, Option.some.injEq] at hm
          rcases hm with ⟨hm1, -⟩ | ⟨-, hm2⟩
          · exact hnm (hm1 ▸ h6)
          · exact hnm (hm2 ▸ h7)
      · have hlu2 : lookupUser _ a = some u := hlu
        rw [hlookOther a ha] at hlu2
        rcases Option.map_eq_some'.1 hlu2 with ⟨w, hw, hwu⟩
        subst hwu
        have hlv2 : lookupTime (w.addInterestingUser entry.username).userEncounterDict b
            = none := hlv
        rw [HlUser.addInterestingUser_userEncounterDict] at hlv2
        exact inv.dictNone a b w hw hlv2

/-! ## Preservation of the invariant by the per-entry state update and by the
whole single pass. -/

theorem updateSelf_preserves {p : HlProcessor} {T U : Int} {nm : String} {user useru : HlUser}
    (inv : EngineInv p T)
    (hl : lookupUser p.userDict nm = some user)
    (hname : useru.name = user.name)
    (hset : useru.otherUserSet = user.otherUserSet)
    (hdict : useru.userEncounterDict = user.userEncounterDict)
    (htime : useru.lastPostedTime = some U)
    (hTU : T ≤ U) :
    EngineInv ⟨updateUser p.userDict nm useru, p.encounterList⟩ U := by
  have inv2 := engineInv_mono inv hTU
  have hmem : (nm, user) ∈ p.userDict := lookupUser_mem hl
  have hunm : user.name = nm := inv.keys _ hmem
  have hlookSelf : lookupUser (updateUser p.userDict nm useru) nm = some useru := by
    rw [lookupUser_updateUser_self, hl]
    rfl
  refine ⟨?_, ?_, ?_, ?_, ?_, ?_, ?_, ?_⟩
  · intro pr hpr
    rcases mem_updateUser hpr with h | ⟨h, -⟩
    · exact inv2.keys pr h
    · subst h
      show useru.name = nm
      rw [hname, hunm]
  · intro pr hpr
    rcases mem_updateUser hpr with h | ⟨h, -⟩
    · exact inv2.noSelf pr h
    · subst h
      show nm ∉ useru.otherUserSet
      rw [hset, ← hunm]
      rw [hunm]
      exact inv2.noSelf _ hmem
  · intro pr hpr t ht
    rcases mem_updateUser hpr with h | ⟨h, -⟩
    · exact inv2.timeBound pr h t ht
    · subst h
      have ht2 : useru.lastPostedTime = some t := ht
      rw [htime] at ht2
      cases ht2
      exact le_refl _
  · intro e he
    obtain ⟨hv, a, b, t, h1, h2, h3, h4, h5, h6, h7⟩ := inv2.encWF e he
    refine ⟨hv, a, b, t, h1, h2, h3, h4, h5, ?_, ?_⟩
    · show a ∈ (updateUser p.userDict nm useru).map Prod.fst
      rw [keys_updateUser]
      exact h6
    · show b ∈ (updateUser p.userDict nm useru).map Prod.fst
      rw [keys_updateUser]
      exact h7
  · exact inv2.encSorted
  · exact inv2.pairGap
  · intro a b u v hlu hlv
    by_cases ha : a = nm
    · subst ha
      have hlu2 : lookupUser (updateUser p.userDict a useru) a = some u := hlu
      rw [hlookSelf] at hlu2
      cases hlu2
      have hlv2 : lookupTime useru.userEncounterDict b = some v := hlv
      rw [hdict] at hlv2
      exact inv2.dictStored a b user v hl hlv2
    · have hlu2 : lookupUser (updateUser p.userDict nm useru) a = some u := hlu
      rw [lookupUser_updateUser_ne _ ha] at hlu2
      exact inv2.dictStored a b u v hlu2 hlv
  · intro a b u hlu hlv
    show pairTimesL p.encounterList a b = []
    by_cases ha : a = nm
    · subst ha
      have hlu2 : lookupUser (updateUser p.userDict a useru) a = some u := hlu
      rw [hlookSelf] at hlu2
      cases hlu2
      have hlv2 : lookupTime useru.userEncounterDict b = none := hlv
      rw [hdict] at hlv2
      exact inv2.dictNone a b user hl hlv2
    · have hlu2 : lookupUser (updateUser p.userDict nm useru) a = some u := hlu
      rw [lookupUser_updateUser_ne _ ha] at hlu2
      exact inv2.dictNone a b u hlu2 hlv

theorem processEntry_preserves (distOk : HlUser → HlUser → Bool) {p : HlProcessor} {T : Int}
    (entry : HlDataEntry) (inv : EngineInv p T) (hT : T ≤ entry.time) :
    EngineInv (HlProcessor.processEntry distOk p entry) entry.time := by
  have inv1 : EngineInv (p.incorporateDataEntryAndUserIfNew entry) entry.time :=
    engineInv_mono (incorporate_preserves inv entry) hT
  cases hl : lookupUser (p.incorporateDataEntryAndUserIfNew entry).userDict entry.username with
  | none =>
    simp only [HlProcessor.processEntry, hl]
    exact inv1
  | some user =>
    simp only [HlProcessor.processEntry, hl]
    have hmem : (entry.username, user) ∈ (p.incorporateDataEntryAndUserIfNew entry).userDict :=
      lookupUser_mem hl
    have inv2 : EngineInv ⟨updateUser (p.incorporateDataEntryAndUserIfNew entry).userDict
        entry.username ((user.updateLastPostedTime entry.time).updateLastPostedLoc entry.loc),
        (p.incorporateDataEntryAndUserIfNew entry).encounterList⟩ entry.time :=
      updateSelf_preserves inv1 hl rfl rfl rfl rfl (le_refl _)
    apply scanOtherUsers_preserves distOk entry.username entry.time _ _ inv2
    · intro u hu
      rw [lookupUser_updateUser_self, hl] at hu
      simp only [Option.map_some'] at hu
      cases hu
      rfl
    · intro on2 hon2
      have hset : ((user.updateLastPostedTime entry.time).updateLastPostedLoc
          entry.loc).otherUserSet = user.otherUserSet := rfl
      rw [hset] at hon2
      intro hcontra
      subst hcontra
      exact inv1.noSelf _ hmem hon2

theorem runFold_preserves (distOk : HlUser → HlUser → Bool) :
    ∀ (entries : List HlDataEntry) (p : HlProcessor) (T : Int), EngineInv p T →
    (∀ e ∈ entries, T ≤ e.time) →
    List.Pairwise (fun e1 e2 : HlDataEntry => e1.time ≤ e2.time) entries →
    ∃ U, EngineInv (entries.foldl (HlProcessor.processEntry distOk) p) U := by
  intro entries
  induction entries with
  | nil =>
    intro p T inv hb hs
    exact ⟨T, inv⟩
  | cons e rest ih =>
    intro p T inv hbound hsorted
    rw [List.foldl_cons]
    have inv2 := processEntry_preserves distOk e inv (hbound e (List.mem_cons_self _ _))
    rcases List.pairwise_cons.1 hsorted with ⟨hhead, htail⟩
    exact ih _ e.time inv2 (fun e2 he2 => hhead e2 he2) htail

theorem findEncounters_inv (distOk : HlUser → HlUser → Bool) (entries : List HlDataEntry)
    (hsorted : List.Pairwise (fun e1 e2 : HlDataEntry => e1.time ≤ e2.time) entries) :
    ∃ U, EngineInv (findEncounters distOk entries) U := by
  cases entries with
  | nil => exact ⟨0, engineInv_initial 0⟩
  | cons e rest =>
    refine runFold_preserves distOk (e :: rest) ⟨[], []⟩ e.time (engineInv_initial e.time)
      ?_ hsorted
    intro e2 he2
    rcases List.mem_cons.1 he2 with h | hmem
    · rw [h]
    · exact (List.pairwise_cons.1 hsorted).1 e2 hmem

/-! ## Claim theorems for the engine. -/

/-- Claim C2: for every user state and every timestamp t, userIsStillActive
returns true if and only if the last posted time is set, t is not earlier than
it, and t minus the last posted time is strictly below 21600 seconds; in
particular a negative delta yields false. -/
theorem userIsStillActive_iff (u : HlUser) (t : Int) :
    u.userIsStillActive (some t) = true ↔
      ∃ lp, u.lastPostedTime = some lp ∧ lp ≤ t ∧ t - lp < kHl_UserActiveTimeLimit := by
  cases hlp : u.lastPostedTime with
  | none => simp [HlUser.userIsStillActive, hlp]
  | some lp =>
    simp only [HlUser.userIsStillActive, hlp]
    by_cases h0 : t - lp < 0
    · rw [if_pos h0]
      constructor
      · intro h
        cases h
      · rintro ⟨lp2, hlp2, hle2, hlt2⟩
        cases hlp2
        exfalso
        omega
    · rw [if_neg h0]
      by_cases h1 : t - lp < kHl_UserActiveTimeLimit
      · rw [if_pos h1]
        constructor
        · intro h
          exact ⟨lp, rfl, by omega, h1⟩
        · intro h
          rfl
      · rw [if_neg h1]
        constructor
        · intro h
          cases h
        · rintro ⟨lp2, hlp2, hle2, hlt2⟩
          cases hlp2
          exact absurd hlt2 h1

/-- Claim C3: for every user state, peer and timestamp t, the dedup check
alreadyEncounteredUserWithinLimit returns true if and only if a last-encounter
timestamp for the peer is stored, t is not earlier than it, and t minus the
stored timestamp is strictly below 86400 seconds; a negative delta yields
false. -/
theorem alreadyEncounteredUserWithinLimit_iff (u other : HlUser) (t : Int) :
    u.alreadyEncounteredUserWithinLimit (some other) (some t) = true ↔
      ∃ te, u.lastEncounterWithUser (some other) = some te ∧ te ≤ t ∧
        t - te < kHl_EncounterTimeLimit := by
  cases hle : u.lastEncounterWithUser (some other) with
  | none => simp [HlUser.alreadyEncounteredUserWithinLimit, hle]
  | some te =>
    simp only [HlUser.alreadyEncounteredUserWithinLimit, hle]
    by_cases h0 : t - te < 0
    · rw [if_pos h0]
      constructor
      · intro h
        cases h
      · rintro ⟨te2, hte2, hle2, hlt2⟩
        cases hte2
        exfalso
        omega
    · rw [if_neg h0]
      by_cases h1 : t - te < kHl_EncounterTimeLimit
      · rw [if_pos h1]
        constructor
        · intro h
          exact ⟨te, rfl, by omega, h1⟩
        · intro h
          rfl
      · rw [if_neg h1]
        constructor
        · intro h
          cases h
        · rintro ⟨te2, hte2, hle2, hlt2⟩
          cases hte2
          exact absurd hlt2 h1

/-- Claim C1: in every run of the engine on a time-sorted record stream (the
precondition the program states for its input), every encounter in the sink
has username1 lexicographically strictly below username2; in particular its
two usernames are never equal.  This holds for every Boolean outcome of the
distance test. -/
theorem findEncounters_usernames_ordered (distOk : HlUser → HlUser → Bool)
    (entries : List HlDataEntry)
    (hsorted : List.Pairwise (fun e1 e2 : HlDataEntry => e1.time ≤ e2.time) entries)
    (e : HlEncounter) (he : e ∈ (findEncounters distOk entries).encounterList) :
    ∃ a b, e.username1 = some a ∧ e.username2 = some b ∧ a < b ∧ a ≠ b := by
  obtain ⟨U, inv⟩ := findEncounters_inv distOk entries hsorted
  obtain ⟨-, a, b, t, h1, h2, h3, -, -, -, -⟩ := inv.encWF e he
  exact ⟨a, b, h1, h2, h3, ne_of_lt h3⟩

/-- Claim C4: for every time-sorted record stream, the completed encounter
list never holds two encounters of the same unordered user pair less than
86400 seconds apart: successive recorded times for a pair grow by at least
the 24-hour limit, for every Boolean outcome of the distance test. -/
theorem findEncounters_pair_dedup (distOk : HlUser → HlUser → Bool)
    (entries : List HlDataEntry)
    (hsorted : List.Pairwise (fun e1 e2 : HlDataEntry => e1.time ≤ e2.time) entries)
    (a b : String) :
    List.Pairwise (fun s t => s + kHl_EncounterTimeLimit ≤ t)
      (pairTimesL (findEncounters distOk entries).encounterList a b) := by
  obtain ⟨U, inv⟩ := findEncounters_inv distOk entries hsorted
  exact inv.pairGap a b

/-- Claim C7: constructing an encounter of a user with itself yields an
invalid encounter object, and in every run of the engine on a time-sorted
stream no self-encounter reaches the sink: every sink encounter is valid and
its two usernames differ. -/
theorem selfEncounter_invalid_and_never_sunk :
    (∀ (t : Option Int) (n : String) (l1 l2 : Option HlLocation),
      (HlEncounter.init t n l1 n l2).valid = false) ∧
    (∀ (distOk : HlUser → HlUser → Bool) (entries : List HlDataEntry),
      List.Pairwise (fun e1 e2 : HlDataEntry => e1.time ≤ e2.time) entries →
      ∀ e ∈ (findEncounters distOk entries).encounterList,
        e.valid = true ∧ e.username1 ≠ e.username2) := by
  constructor
  · intro t n l1 l2
    simp [HlEncounter.init]
  · intro distOk entries hsorted e he
    obtain ⟨U, inv⟩ := findEncounters_inv distOk entries hsorted
    obtain ⟨hv, a, b, t, h1, h2, h3, -, -, -, -⟩ := inv.encWF e he
    refine ⟨hv, ?_⟩
    rw [h1, h2]
    intro hcontra
    cases hcontra
    exact lt_irrefl a h3

/-- Claim C8: whenever an encounter is confirmed by addEncounter between two
distinct users of the dictionary with posted times t0 and t1, the appended
encounter carries timestamp max t0 t1, and that same timestamp is recorded
symmetrically in both users' per-peer encounter tables. -/
theorem addEncounter_timestamp_max_symmetric (p : HlProcessor) (u0 u1 : HlUser) (t0 t1 : Int)
    (h0 : lookupUser p.userDict u0.name = some u0)
    (h1 : lookupUser p.userDict u1.name = some u1)
    (hne : u0.name ≠ u1.name)
    (ht0 : u0.lastPostedTime = some t0) (ht1 : u1.lastPostedTime = some t1) :
    (∃ enc, (p.addEncounter u0 u1).encounterList = p.encounterList ++ [enc] ∧
      enc.time = some (max t0 t1)) ∧
    (∃ v0, lookupUser (p.addEncounter u0 u1).userDict u0.name = some v0 ∧
      v0.lastEncounterWithUser (some u1) = some (max t0 t1)) ∧
    (∃ v1, lookupUser (p.addEncounter u0 u1).userDict u1.name = some v1 ∧
      v1.lastEncounterWithUser (some u0) = some (max t0 t1)) := by
  have hmax : pyMaxOpt u0.lastPostedTime u1.lastPostedTime = some (max t0 t1) := by
    rw [ht0, ht1]
    rfl
  have hlist : (p.addEncounter u0 u1).encounterList = p.encounterList ++
      [HlEncounter.init (some (max t0 t1)) u0.name u0.lastPostedLoc u1.name u1.lastPostedLoc] := by
    simp only [HlProcessor.addEncounter, hmax]
  refine ⟨⟨_, hlist, HlEncounter.init_time hne _ _ _⟩, ?_, ?_⟩
  · refine ⟨u0.updateEncounterWithUser (some u1) (some (max t0 t1)), ?_, ?_⟩
    · rw [addEncounter_userDict, hmax, lookupUser_updateUser_ne _ hne,
        lookupUser_updateUser_self, h0]
      rfl
    · simp only [HlUser.lastEncounterWithUser, HlUser.updateEncounterWithUser_dict,
        lookupTime_updateTime_self]
  · refine ⟨u1.updateEncounterWithUser (some u0) (some (max t0 t1)), ?_, ?_⟩
    · rw [addEncounter_userDict, hmax, lookupUser_updateUser_self,
        lookupUser_updateUser_ne _ hne.symm, h1]
      rfl
    · simp only [HlUser.lastEncounterWithUser, HlUser.updateEncounterWithUser_dict,
        lookupTime_updateTime_self]

/-- Claim C9: for every time-sorted record stream, the encounter sink in the
default (unsorted) mode is already in non-decreasing timestamp order, each
appended encounter carrying a timestamp at least that of every earlier one
(and every sink encounter has a set timestamp). -/
theorem findEncounters_times_monotone (distOk : HlUser → HlUser → Bool)
    (entries : List HlDataEntry)
    (hsorted : List.Pairwise (fun e1 e2 : HlDataEntry => e1.time ≤ e2.time) entries) :
    List.Pairwise (fun e1 e2 => encTime e1 ≤ encTime e2)
      (findEncounters distOk entries).encounterList ∧
    ∀ e ∈ (findEncounters distOk entries).encounterList, ∃ t, e.time = some t := by
  obtain ⟨U, inv⟩ := findEncounters_inv distOk entries hsorted
  refine ⟨inv.encSorted, ?_⟩
  intro e he
  obtain ⟨-, a, b, t, -, -, -, h4, -, -, -⟩ := inv.encWF e he
  exact ⟨t, h4⟩

/-- Claim C10: throughout every run on a time-sorted stream, no user is a
member of its own interesting-user set: every user stored in the user
dictionary is keyed by its own name and does not contain itself in
otherUserSet, so the detection loop never evaluates a user against itself. -/
theorem interestingSets_exclude_self (distOk : HlUser → HlUser → Bool)
    (entries : List HlDataEntry)
    (hsorted : List.Pairwise (fun e1 e2 : HlDataEntry => e1.time ≤ e2.time) entries)
    (n : String) (u : HlUser)
    (hl : lookupUser (findEncounters distOk entries).userDict n = some u) :
    u.name = n ∧ n ∉ u.otherUserSet := by
  obtain ⟨U, inv⟩ := findEncounters_inv distOk entries hsorted
  have hmem := lookupUser_mem hl
  exact ⟨inv.keys _ hmem, inv.noSelf _ hmem⟩

/-! ## Concrete demonstration run used by the witnesses. -/

def demoLoc : HlLocation := ⟨"0.0", "0.0"⟩

def demoDist : HlUser → HlUser → Bool := fun _ _ => true

def demoEntries : List HlDataEntry := [⟨"a", 0, demoLoc⟩, ⟨"b", 1, demoLoc⟩]

def demoEnc : HlEncounter :=
  ⟨some "a", some "b", some demoLoc, some demoLoc, some 1, true⟩

set_option maxHeartbeats 1000000 in
theorem demoRun_encounterList :
    (findEncounters demoDist demoEntries).encounterList = [demoEnc] := by
  simp +decide [findEncounters, HlProcessor.processEntry,
    HlProcessor.incorporateDataEntryAndUserIfNew, HlProcessor.updateInterestingUserSets,
    HlProcessor.scanOtherUsers, HlProcessor.scanStep, HlProcessor.addEncounter,
    HlEncounter.init, HlUser.updateLastPostedTime, HlUser.updateLastPostedLoc,
    HlUser.updateEncounterWithUser, HlUser.lastEncounterWithUser, HlUser.addInterestingUser,
    HlUser.cleanInterestingUsers, HlUser.userIsStillActive,
    HlUser.alreadyEncounteredUserWithinLimit, pyMaxOpt, lookupUser, updateUser, lookupTime,
    updateTime, demoDist, demoEntries, demoLoc, demoEnc, kHl_UserActiveTimeLimit,
    kHl_EncounterTimeLimit]

set_option maxHeartbeats 1000000 in
theorem demoRun_lookup_a :
    lookupUser (findEncounters demoDist demoEntries).userDict "a" =
      some ⟨"a", some 0, some demoLoc, [("b", some 1)], ["b"]⟩ := by
  simp +decide [findEncounters, HlProcessor.processEntry,
    HlProcessor.incorporateDataEntryAndUserIfNew, HlProcessor.updateInterestingUserSets,
    HlProcessor.scanOtherUsers, HlProcessor.scanStep, HlProcessor.addEncounter,
    HlEncounter.init, HlUser.updateLastPostedTime, HlUser.updateLastPostedLoc,
    HlUser.updateEncounterWithUser, HlUser.lastEncounterWithUser, HlUser.addInterestingUser,
    HlUser.cleanInterestingUsers, HlUser.userIsStillActive,
    HlUser.alreadyEncounteredUserWithinLimit, pyMaxOpt, lookupUser, updateUser, lookupTime,
    updateTime, demoDist, demoEntries, demoLoc, kHl_UserActiveTimeLimit,
    kHl_EncounterTimeLimit]

/-- Witness for claim C1 at the concrete two-entry demonstration run. -/
theorem findEncounters_usernames_ordered_witness :
    demoEnc ∈ (findEncounters demoDist demoEntries).encounterList ∧
    ∃ a b, demoEnc.username1 = some a ∧ demoEnc.username2 = some b ∧ a < b ∧ a ≠ b := by
  have hmem : demoEnc ∈ (findEncounters demoDist demoEntries).encounterList := by
    rw [demoRun_encounterList]
    exact List.mem_singleton_self _
  exact ⟨hmem,
    findEncounters_usernames_ordered demoDist demoEntries (by decide) demoEnc hmem⟩

/-- Witness for claim C4 at the concrete two-entry demonstration run. -/
theorem findEncounters_pair_dedup_witness :
    List.Pairwise (fun s t => s + kHl_EncounterTimeLimit ≤ t)
      (pairTimesL (findEncounters demoDist demoEntries).encounterList "a" "b") :=
  findEncounters_pair_dedup demoDist demoEntries (by decide) "a" "b"

/-- Witness for claim C7: a concrete self-encounter construction is invalid,
and the encounter of the demonstration run is valid with distinct names. -/
theorem selfEncounter_invalid_and_never_sunk_witness :
    (HlEncounter.init (some 0) "x" none "x" none).valid = false ∧
    (demoEnc.valid = true ∧ demoEnc.username1 ≠ demoEnc.username2) := by
  have hmem : demoEnc ∈ (findEncounters demoDist demoEntries).encounterList := by
    rw [demoRun_encounterList]
    exact List.mem_singleton_self _
  exact ⟨selfEncounter_invalid_and_never_sunk.1 (some 0) "x" none none,
    selfEncounter_invalid_and_never_sunk.2 demoDist demoEntries (by decide) demoEnc hmem⟩

def demoUserA : HlUser := ⟨"a", some 5, none, [], []⟩

def demoUserB : HlUser := ⟨"b", some 9, none, [], []⟩

def demoProcP : HlProcessor := ⟨[("a", demoUserA), ("b", demoUserB)], []⟩

/-- Witness for claim C8 at a concrete two-user processor state. -/
theorem addEncounter_timestamp_max_symmetric_witness :
    (∃ enc, (demoProcP.addEncounter demoUserA demoUserB).encounterList =
      demoProcP.encounterList ++ [enc] ∧ enc.time = some (max 5 9)) ∧
    (∃ v0, lookupUser (demoProcP.addEncounter demoUserA demoUserB).userDict demoUserA.name
      = some v0 ∧ v0.lastEncounterWithUser (some demoUserB) = some (max 5 9)) ∧
    (∃ v1, lookupUser (demoProcP.addEncounter demoUserA demoUserB).userDict demoUserB.name
      = some v1 ∧ v1.lastEncounterWithUser (some demoUserA) = some (max 5 9)) :=
  addEncounter_timestamp_max_symmetric demoProcP demoUserA demoUserB 5 9
    (by decide) (by decide) (by decide) rfl rfl

/-- Witness for claim C9 at the concrete two-entry demonstration run. -/
theorem findEncounters_times_monotone_witness :
    List.Pairwise (fun e1 e2 => encTime e1 ≤ encTime e2)
      (findEncounters demoDist demoEntries).encounterList ∧
    ∀ e ∈ (findEncounters demoDist demoEntries).encounterList, ∃ t, e.time = some t :=
  findEncounters_times_monotone demoDist demoEntries (by decide)

/-- Witness for claim C10 at the concrete two-entry demonstration run. -/
theorem interestingSets_exclude_self_witness :
    (⟨"a", some 0, some demoLoc, [("b", some 1)], ["b"]⟩ : HlUser).name = "a" ∧
    "a" ∉ (⟨"a", some 0, some demoLoc, [("b", some 1)], ["b"]⟩ : HlUser).otherUserSet :=
  interestingSets_exclude_self demoDist demoEntries (by decide) "a" _ demoRun_lookup_a

/-! ## Distance layer: the floating-point geometry of the source embedded over
the real numbers.  Latitude and longitude are the parsed degree values; the
radian conversion mirrors math.radians.  The cached cos values of the user
objects only memoize these expressions and are inlined. -/

noncomputable section

def kHl_MaximumEncounterDistance : ℝ := 150

def kHl_MaximumApproxDistanceWithBuffer : ℝ := kHl_MaximumEncounterDistance + 100

def kHl_EarthRadiusMeters : ℝ := 6371009

def kHl_Quad2MinRadians : ℝ := Real.pi / 2

def kHl_Quad2MaxRadians : ℝ := Real.pi

def kHl_Quad4MinRadians : ℝ := -1 * kHl_Quad2MinRadians

def kHl_Quad4MaxRadians : ℝ := 0

structure HlLocationR where
  latD : ℝ
  longD : ℝ

def mathRadians (x : ℝ) : ℝ := x * (Real.pi / 180)

def HlLocationR.latitudeR (loc : HlLocationR) : ℝ := mathRadians loc.latD

def HlLocationR.longitudeR (loc : HlLocationR) : ℝ := mathRadians loc.longD

/-- Return sin(x) given cos(x) and x, as sqrt(1 - cos^2) with the sign
adjusted by the quadrant tests of the source (sinFromCos). -/
def sinFromCos (angle cosVal : ℝ) : ℝ :=
  let sinVal := Real.sqrt (1 - cosVal * cosVal)
  if (kHl_Quad2MinRadians ≤ angle ∧ angle < kHl_Quad2MaxRadians) ∨
     (kHl_Quad4MinRadians ≤ angle ∧ angle < kHl_Quad4MaxRadians) then
    -1 * sinVal
  else sinVal

/-- Distance between two positions by the Haversine formula of the source. -/
def distanceToUserHaversine (selfLoc userLoc : HlLocationR) : ℝ :=
  let p1 := selfLoc.latitudeR
  let p2 := userLoc.latitudeR
  let l1 := selfLoc.longitudeR
  let l2 := userLoc.longitudeR
  let cosp1 := Real.cos p1
  let cosp2 := Real.cos p2
  let sinDeltaHalfP := Real.sin ((p2 - p1) / 2)
  let sinDeltaHalfL := Real.sin ((l2 - l1) / 2)
  let sin2DeltaHalfP := sinDeltaHalfP * sinDeltaHalfP
  let sin2DeltaHalfL := sinDeltaHalfL * sinDeltaHalfL
  2 * kHl_EarthRadiusMeters *
    Real.arcsin (Real.sqrt (sin2DeltaHalfP + cosp1 * cosp2 * sin2DeltaHalfL))

/-- The argument handed by distanceToUserHaversine to math.sqrt and then (as
its square root) to math.asin. -/
def haversineArg (selfLoc userLoc : HlLocationR) : ℝ :=
  let p1 := selfLoc.latitudeR
  let p2 := userLoc.latitudeR
  let l1 := selfLoc.longitudeR
  let l2 := userLoc.longitudeR
  let cosp1 := Real.cos p1
  let cosp2 := Real.cos p2
  let sinDeltaHalfP := Real.sin ((p2 - p1) / 2)
  let sinDeltaHalfL := Real.sin ((l2 - l1) / 2)
  let sin2DeltaHalfP := sinDeltaHalfP * sinDeltaHalfP
  let sin2DeltaHalfL := sinDeltaHalfL * sinDeltaHalfL
  sin2DeltaHalfP + cosp1 * cosp2 * sin2DeltaHalfL

theorem distanceToUserHaversine_eq (selfLoc userLoc : HlLocationR) :
    distanceToUserHaversine selfLoc userLoc =
      2 * kHl_EarthRadiusMeters * Real.arcsin (Real.sqrt (haversineArg selfLoc userLoc)) := rfl

/-- Distance between two positions by the sphere chord length formula of the
source (distanceToUserSimpleChord), with sines derived from cosines through
sinFromCos. -/
def distanceToUserSimpleChord (selfLoc userLoc : HlLocationR) : ℝ :=
  let p1 := selfLoc.latitudeR
  let p2 := userLoc.latitudeR
  let l1 := selfLoc.longitudeR
  let l2 := userLoc.longitudeR
  let cosp1 := Real.cos p1
  let cosp2 := Real.cos p2
  let cosl1 := Real.cos l1
  let cosl2 := Real.cos l2
  let sinp1 := sinFromCos p1 cosp1
  let sinp2 := sinFromCos p2 cosp2
  let sinl1 := sinFromCos l1 cosl1
  let sinl2 := sinFromCos l2 cosl2
  let deltaX := kHl_EarthRadiusMeters * (cosp2 * cosl2 - cosp1 * cosl1)
  let deltaY := kHl_EarthRadiusMeters * (cosp2 * sinl2 - cosp1 * sinl1)
  let deltaZ := kHl_EarthRadiusMeters * (sinp2 - sinp1)
  Real.sqrt (deltaX * deltaX + deltaY * deltaY + deltaZ * deltaZ)

/-- The Boolean distance test of the source (distanceToUserWithinLimit): with
the optional chord pre-filter, reject early when the chord distance exceeds
the buffered limit; otherwise accept iff the Haversine distance is within the
150 meter limit.  The two sequential ifs of the source are rendered as one
conjunction in the first condition, with identical outcome. -/
def distanceToUserWithinLimit (selfLoc userLoc : Option HlLocationR) (approxFirst : Bool) : Bool :=
  match selfLoc, userLoc with
  | some sl, some ul =>
    if approxFirst = true ∧
        distanceToUserSimpleChord sl ul > kHl_MaximumApproxDistanceWithBuffer then false
    else if distanceToUserHaversine sl ul ≤ kHl_MaximumEncounterDistance then true
    else false
  | _, _ => false

end

/-! ## Concrete positions exposing the quadrant sign error of sinFromCos.
The two positions name the same point of the sphere: latitude 120, longitude
0 degrees (a latitude inside the documented -180..180 input range of the
location class) and latitude 60, longitude 180 degrees. -/

noncomputable def locBugA : HlLocationR := ⟨120, 0⟩

noncomputable def locBugB : HlLocationR := ⟨60, 180⟩

theorem locBugA_lat : locBugA.latitudeR = 2 * Real.pi / 3 := by
  unfold HlLocationR.latitudeR mathRadians locBugA
  ring

theorem locBugB_lat : locBugB.latitudeR = Real.pi / 3 := by
  unfold HlLocationR.latitudeR mathRadians locBugB
  ring

theorem locBugA_long : locBugA.longitudeR = 0 := by
  unfold HlLocationR.longitudeR mathRadians locBugA
  ring

theorem locBugB_long : locBugB.longitudeR = Real.pi := by
  unfold HlLocationR.longitudeR mathRadians locBugB
  ring

theorem cos_two_pi_div_three : Real.cos (2 * Real.pi / 3) = -(1 / 2) := by
  rw [show (2 * Real.pi / 3 : ℝ) = Real.pi - Real.pi / 3 from by ring, Real.cos_pi_sub,
    Real.cos_pi_div_three]

theorem havArg_locBug : haversineArg locBugA locBugB = 0 := by
  simp only [haversineArg]
  rw [locBugA_lat, locBugB_lat, locBugA_long, locBugB_long]
  rw [show ((Real.pi / 3 - 2 * Real.pi / 3) / 2 : ℝ) = -(Real.pi / 6) from by ring,
    show ((Real.pi - 0) / 2 : ℝ) = Real.pi / 2 from by ring,
    Real.sin_neg, Real.sin_pi_div_six, Real.sin_pi_div_two,
    cos_two_pi_div_three, Real.cos_pi_div_three]
  norm_num

theorem hav_locBug_le :
    distanceToUserHaversine locBugA locBugB ≤ kHl_MaximumEncounterDistance := by
  rw [distanceToUserHaversine_eq, havArg_locBug, Real.sqrt_zero, Real.arcsin_zero, mul_zero]
  unfold kHl_MaximumEncounterDistance
  norm_num

theorem sinFromCos_two_pi_div_three :
    sinFromCos (2 * Real.pi / 3) (-(1 / 2)) = -1 * Real.sqrt (3 / 4) := by
  simp only [sinFromCos]
  have hc : (kHl_Quad2MinRadians ≤ 2 * Real.pi / 3 ∧ 2 * Real.pi / 3 < kHl_Quad2MaxRadians) ∨
      (kHl_Quad4MinRadians ≤ 2 * Real.pi / 3 ∧ 2 * Real.pi / 3 < kHl_Quad4MaxRadians) := by
    left
    constructor
    · unfold kHl_Quad2MinRadians
      linarith [Real.pi_pos]
    · unfold kHl_Quad2MaxRadians
      linarith [Real.pi_pos]
  rw [if_pos hc, show (1 : ℝ) - -(1 / 2) * -(1 / 2) = 3 / 4 from by norm_num]

theorem sinFromCos_pi_div_three :
    sinFromCos (Real.pi / 3) (1 / 2) = Real.sqrt (3 / 4) := by
  simp only [sinFromCos]
  have hc : ¬((kHl_Quad2MinRadians ≤ Real.pi / 3 ∧ Real.pi / 3 < kHl_Quad2MaxRadians) ∨
      (kHl_Quad4MinRadians ≤ Real.pi / 3 ∧ Real.pi / 3 < kHl_Quad4MaxRadians)) := by
    rintro (⟨h1, -⟩ | ⟨-, h2⟩)
    · unfold kHl_Quad2MinRadians at h1
      linarith [Real.pi_pos]
    · unfold kHl_Quad4MaxRadians at h2
      linarith [Real.pi_pos]
  rw [if_neg hc, show (1 : ℝ) - 1 / 2 * (1 / 2) = 3 / 4 from by norm_num]

theorem sinFromCos_zero : sinFromCos 0 1 = 0 := by
  simp only [sinFromCos]
  have hc : ¬((kHl_Quad2MinRadians ≤ 0 ∧ (0 : ℝ) < kHl_Quad2MaxRadians) ∨
      (kHl_Quad4MinRadians ≤ 0 ∧ (0 : ℝ) < kHl_Quad4MaxRadians)) := by
    rintro (⟨h1, -⟩ | ⟨-, h2⟩)
    · unfold kHl_Quad2MinRadians at h1
      linarith [Real.pi_pos]
    · unfold kHl_Quad4MaxRadians at h2
      exact lt_irrefl 0 h2
  rw [if_neg hc, show (1 : ℝ) - 1 * 1 = 0 from by norm_num, Real.sqrt_zero]

theorem sinFromCos_pi : sinFromCos Real.pi (-1) = 0 := by
  simp only [sinFromCos]
  have hc : ¬((kHl_Quad2MinRadians ≤ Real.pi ∧ Real.pi < kHl_Quad2MaxRadians) ∨
      (kHl_Quad4MinRadians ≤ Real.pi ∧ Real.pi < kHl_Quad4MaxRadians)) := by
    rintro (⟨-, h1⟩ | ⟨-, h2⟩)
    · unfold kHl_Quad2MaxRadians at h1
      exact lt_irrefl _ h1
    · unfold kHl_Quad4MaxRadians at h2
      linarith [Real.pi_pos]
  rw [if_neg hc, show (1 : ℝ) - -1 * -1 = 0 from by norm_num, Real.sqrt_zero]

theorem chord_locBug : distanceToUserSimpleChord locBugA locBugB =
    kHl_EarthRadiusMeters * (2 * Real.sqrt (3 / 4)) := by
  simp only [distanceToUserSimpleChord]
  rw [locBugA_lat, locBugB_lat, locBugA_long, locBugB_long,
    cos_two_pi_div_three, Real.cos_pi_div_three, Real.cos_zero, Real.cos_pi,
    sinFromCos_two_pi_div_three, sinFromCos_pi_div_three, sinFromCos_zero, sinFromCos_pi]
  have harg : kHl_EarthRadiusMeters * (1 / 2 * -1 - -(1 / 2) * 1) *
        (kHl_EarthRadiusMeters * (1 / 2 * -1 - -(1 / 2) * 1)) +
      kHl_EarthRadiusMeters * (1 / 2 * 0 - -(1 / 2) * 0) *
        (kHl_EarthRadiusMeters * (1 / 2 * 0 - -(1 / 2) * 0)) +
      kHl_EarthRadiusMeters * (Real.sqrt (3 / 4) - -1 * Real.sqrt (3 / 4)) *
        (kHl_EarthRadiusMeters * (Real.sqrt (3 / 4) - -1 * Real.sqrt (3 / 4))) =
      (kHl_EarthRadiusMeters * (2 * Real.sqrt (3 / 4))) ^ 2 := by
    ring
  rw [harg, Real.sqrt_sq]
  have h34 : (0 : ℝ) ≤ Real.sqrt (3 / 4) := Real.sqrt_nonneg _
  unfold kHl_EarthRadiusMeters
  nlinarith [h34]

theorem chord_locBug_gt :
    distanceToUserSimpleChord locBugA locBugB > kHl_MaximumApproxDistanceWithBuffer := by
  rw [chord_locBug]
  have h14 : Real.sqrt (1 / 4) = 1 / 2 := by
    rw [show (1 / 4 : ℝ) = (1 / 2) ^ 2 from by norm_num]
    exact Real.sqrt_sq (by norm_num)
  have hs : Real.sqrt (3 / 4) ≥ 1 / 2 := by
    rw [← h14]
    exact Real.sqrt_le_sqrt (by norm_num)
  unfold kHl_MaximumApproxDistanceWithBuffer kHl_MaximumEncounterDistance kHl_EarthRadiusMeters
  nlinarith [hs]

/-- Claim C5 evaluated at the failing input: at the concrete pair of positions
locBugA and locBugB (the same physical point written with two different
coordinate representations inside the documented input range), the engine
with the chord pre-filter enabled rejects the pair while the plain Haversine
test accepts it.  The quadrant sign handling of sinFromCos flips the sign of
sin for angles in the second quadrant, so the computed chord length vastly
exceeds the true distance and the pre-filter changes the final decision,
refuting the claim that it never does. -/
theorem chordFilter_changes_decision :
    distanceToUserWithinLimit (some locBugA) (some locBugB) true = false ∧
    distanceToUserWithinLimit (some locBugA) (some locBugB) false = true := by
  constructor
  · simp only [distanceToUserWithinLimit]
    rw [if_pos ⟨trivial, chord_locBug_gt⟩]
  · simp only [distanceToUserWithinLimit]
    have hcond : ¬(false = true ∧ distanceToUserSimpleChord locBugA locBugB >
        kHl_MaximumApproxDistanceWithBuffer) := by
      rintro ⟨h, -⟩
      cases h
    rw [if_neg hcond, if_pos hav_locBug_le]

/-! ## Exact-arithmetic domain analysis of the Haversine argument.  The source
applies no clamp before math.sqrt and math.asin; over the reals the argument
nevertheless always lies in the unit interval, for all real coordinates, so
the clamp required by the specification is observable only under
floating-point rounding. -/

theorem unit_circle_bound (L c1 c2 s1 s2 : ℝ) (hL1 : -1 ≤ L) (hL2 : L ≤ 1)
    (h1 : s1 ^ 2 + c1 ^ 2 = 1) (h2 : s2 ^ 2 + c2 ^ 2 = 1) :
    -1 ≤ s1 * s2 + c1 * c2 * L ∧ s1 * s2 + c1 * c2 * L ≤ 1 := by
  constructor
  · nlinarith [sq_nonneg (s1 + s2),
      mul_nonneg (by linarith : (0 : ℝ) ≤ 1 + L) (sq_nonneg (c1 + c2)),
      mul_nonneg (by linarith : (0 : ℝ) ≤ 1 - L) (sq_nonneg (c1 - c2))]
  · nlinarith [sq_nonneg (s1 - s2),
      mul_nonneg (by linarith : (0 : ℝ) ≤ 1 - L) (sq_nonneg (c1 + c2)),
      mul_nonneg (by linarith : (0 : ℝ) ≤ 1 + L) (sq_nonneg (c1 - c2))]

theorem haversineArg_bounds (selfLoc userLoc : HlLocationR) :
    0 ≤ haversineArg selfLoc userLoc ∧ haversineArg selfLoc userLoc ≤ 1 := by
  simp only [haversineArg]
  set p1 := selfLoc.latitudeR
  set p2 := userLoc.latitudeR
  set l1 := selfLoc.longitudeR
  set l2 := userLoc.longitudeR
  have hA : Real.cos (p2 - p1) = 2 * Real.cos ((p2 - p1) / 2) ^ 2 - 1 := by
    have h := Real.cos_two_mul ((p2 - p1) / 2)
    rw [show (2 : ℝ) * ((p2 - p1) / 2) = p2 - p1 from by ring] at h
    exact h
  have hA2 : Real.sin ((p2 - p1) / 2) ^ 2 + Real.cos ((p2 - p1) / 2) ^ 2 = 1 :=
    Real.sin_sq_add_cos_sq _
  have hB : Real.cos (l2 - l1) = 2 * Real.cos ((l2 - l1) / 2) ^ 2 - 1 := by
    have h := Real.cos_two_mul ((l2 - l1) / 2)
    rw [show (2 : ℝ) * ((l2 - l1) / 2) = l2 - l1 from by ring] at h
    exact h
  have hB2 : Real.sin ((l2 - l1) / 2) ^ 2 + Real.cos ((l2 - l1) / 2) ^ 2 = 1 :=
    Real.sin_sq_add_cos_sq _
  have hsub : Real.cos (p2 - p1) = Real.cos p2 * Real.cos p1 + Real.sin p2 * Real.sin p1 :=
    Real.cos_sub _ _
  have hL1 : -1 ≤ Real.cos (l2 - l1) := Real.neg_one_le_cos _
  have hL2 : Real.cos (l2 - l1) ≤ 1 := Real.cos_le_one _
  have hc1 : Real.sin p1 ^ 2 + Real.cos p1 ^ 2 = 1 := Real.sin_sq_add_cos_sq _
  have hc2 : Real.sin p2 ^ 2 + Real.cos p2 ^ 2 = 1 := Real.sin_sq_add_cos_sq _
  obtain ⟨hlow, hhigh⟩ := unit_circle_bound (Real.cos (l2 - l1)) (Real.cos p1) (Real.cos p2)
    (Real.sin p1) (Real.sin p2) hL1 hL2 hc1 hc2
  have hdl : Real.sin ((l2 - l1) / 2) ^ 2 = (1 - Real.cos (l2 - l1)) / 2 := by
    linarith [hB, hB2]
  have hpp : Real.sin ((p2 - p1) / 2) ^ 2 =
      (1 - (Real.cos p2 * Real.cos p1 + Real.sin p2 * Real.sin p1)) / 2 := by
    have h3 : Real.sin ((p2 - p1) / 2) ^ 2 = (1 - Real.cos (p2 - p1)) / 2 := by
      linarith [hA, hA2]
    rw [h3, hsub]
  have key : Real.sin ((p2 - p1) / 2) * Real.sin ((p2 - p1) / 2) +
      Real.cos p1 * Real.cos p2 * (Real.sin ((l2 - l1) / 2) * Real.sin ((l2 - l1) / 2)) =
      (1 - (Real.sin p1 * Real.sin p2 + Real.cos p1 * Real.cos p2 * Real.cos (l2 - l1))) / 2 := by
    have e1 : Real.sin ((p2 - p1) / 2) * Real.sin ((p2 - p1) / 2) =
        Real.sin ((p2 - p1) / 2) ^ 2 := by ring
    have e2 : Real.sin ((l2 - l1) / 2) * Real.sin ((l2 - l1) / 2) =
        Real.sin ((l2 - l1) / 2) ^ 2 := by ring
    rw [e1, e2, hpp, hdl]
    ring
  constructor
  · rw [key]
    linarith [hhigh]
  · rw [key]
    linarith [hlow]

theorem haversine_sqrt_arcsin_domain (selfLoc userLoc : HlLocationR) :
    0 ≤ haversineArg selfLoc userLoc ∧
    Real.sqrt (haversineArg selfLoc userLoc) ≤ 1 := by
  obtain ⟨h0, h1⟩ := haversineArg_bounds selfLoc userLoc
  exact ⟨h0, Real.sqrt_le_one.2 h1⟩
